import Mathlib

/-!
Verification of the RRI crawler (`rri_crawler.py`) and the correspondence
matcher (`find_correspondences.py`).

The Python source is shallowly embedded: strings are Lean `String`s
(manipulated through their underlying `List Char`), the filesystem and the
remote site are explicit data (association lists), JSON values are an
inductive type, and the `crawl_category` while-loop is a fuel-indexed step
function whose fuel adequacy is proved separately.  External collaborators
(HTTP transport, BeautifulSoup extraction, the `grep` subprocess) are
modelled as oracles supplying exactly the data the embedded code consumes.
-/

namespace RRI

/-! ## Character-list helpers (Python string operations) -/

/-- The characters of `".html"`, used by the `-id(\d+)\.html$` pattern. -/
def htmlSuffix : List Char := ['.', 'h', 't', 'm', 'l']

/-- ASCII digit test, modelling `\d` of the regex for ASCII inputs. -/
def isDigitChar (c : Char) : Bool := c.isDigit

/-- Core of `re.search(r'-id(\d+)\.html$', url)` on the reversed
characters of the URL with the trailing `".html"` already removed:
take the maximal trailing digit run and require it to be non-empty and
preceded by `"-id"`. -/
def idSuffixAux (rcore : List Char) : Option (List Char) :=
  let rds := rcore.takeWhile isDigitChar
  if rds.isEmpty then none
  else if (rcore.drop rds.length).take 3 = ['d', 'i', '-'] then some rds.reverse
  else none

/-- `re.search(r'-id(\d+)\.html$', url)`: the captured digit group, when the
URL ends in `-id<digits>.html`. -/
def idSuffix (url : List Char) : Option (List Char) :=
  if url.reverse.take 5 = htmlSuffix.reverse then idSuffixAux (url.reverse.drop 5)
  else none

/-- Python `str.split('/')`: always returns at least one (possibly empty)
piece. -/
def splitOnSlash : List Char → List (List Char)
  | [] => [[]]
  | c :: cs =>
    match splitOnSlash cs with
    | [] => [[c]]
    | s :: rest => if c = '/' then [] :: s :: rest else (c :: s) :: rest

/-- Python `str.replace('.html', '')`: remove every (non-overlapping,
left-to-right) occurrence of `".html"`. -/
def removeHtml : List Char → List Char
  | [] => []
  | c :: cs =>
    if (c :: cs).take 5 = htmlSuffix then removeHtml (cs.drop 4)
    else c :: removeHtml cs
termination_by l => l.length
decreasing_by
  · simp only [List.length_drop, List.length_cons]; omega
  · simp only [List.length_cons]; omega

/-- `url.split('/')[-1].replace('.html', '')`, the fallback article id. -/
def fallbackId (url : List Char) : List Char :=
  removeHtml ((splitOnSlash url).getLastD [])

/-- Locate the first `"://"` in the string and return what follows it,
if present. -/
def afterSchemeSep : List Char → Option (List Char)
  | [] => none
  | c :: cs =>
    if (c :: cs).take 3 = [':', '/', '/'] then some ((c :: cs).drop 3)
    else afterSchemeSep cs

/-- `urllib.parse.urlparse(url).path`, modelled for http-style absolute
URLs (`scheme://host/path?query#fragment`) and scheme-less references
(which Python treats as all-path).  Fragment and query are cut first; for
an absolute URL the path starts at the first `'/'` after the authority. -/
def pathChars (url : List Char) : List Char :=
  let stripped := (url.takeWhile (· != '#')).takeWhile (· != '?')
  match afterSchemeSep stripped with
  | some rest => rest.dropWhile (· != '/')
  | none => stripped

/-- `re.search(pre ++ '([^/]+)', s)` where `pre` is a literal: at the
leftmost position where `pre` occurs followed by at least one non-`'/'`
character, capture the maximal run of non-`'/'` characters. -/
def searchCapture (pre : List Char) : List Char → Option (List Char)
  | [] => none
  | c :: cs =>
    if pre.isPrefixOf (c :: cs) then
      match ((c :: cs).drop pre.length).head? with
      | some r =>
        if r != '/' then some (((c :: cs).drop pre.length).takeWhile (· != '/'))
        else searchCapture pre cs
      | none => searchCapture pre cs
    else searchCapture pre cs

/-! ## `RRICrawler._url_to_filename`

The section's `category_pattern` is always of the shape
`r'<pre>([^/]+)'` with `<pre>` a literal such as `/ro_ar/`, so it is
modelled by its literal part `catPre`. -/

/-- `urlparse(url).path` at the `String` level. -/
def urlparsePath (url : String) : String := String.mk (pathChars url.data)

/-- The `article_id` computed by `_url_to_filename`. -/
def articleIdOf (url : String) : String :=
  match idSuffix url.data with
  | some ds => String.mk ds
  | none => String.mk (fallbackId url.data)

/-- The category label computed from a path by the section's
`category_pattern` (`cat_match.group(1) if cat_match else "unknown"`). -/
def categoryOfPath (catPre : String) (path : String) : String :=
  match searchCapture catPre.data path.data with
  | some c => String.mk c
  | none => "unknown"

/-- `RRICrawler._url_to_filename`. -/
def urlToFilename (catPre : String) (url : String) : String :=
  categoryOfPath catPre (urlparsePath url) ++ "_" ++ articleIdOf url ++ ".json"

/-! ## Data model -/

/-- Lightweight metadata for `index.json` (dataclass `IndexEntry`). -/
structure IndexEntry where
  url : String
  title : String
  date : Option String
  category : String
  filename : String
deriving DecidableEq

/-- Full article record (dataclass `Article`).  `crawled_at` is a wall-clock
stamp (`datetime.now().isoformat()`); no claim depends on it, so the model
stamps the empty string. -/
structure Article where
  url : String
  title : String
  date : Option String
  category : String
  content : String
  audio_url : Option String
  image_urls : List String
  crawled_at : String
deriving DecidableEq

/-- Per-section configuration (one value of the `SECTIONS` table).  The
`category_pattern` is always `r'<pre>([^/]+)'`, represented by its literal
part `catPre`. -/
structure SectionConfig where
  name : String
  pathPre : String
  catPre : String
  categories : List String
deriving DecidableEq

/-- The `SECTIONS` configuration table of `rri_crawler.py`. -/
def SECTIONS : List (String × SectionConfig) :=
  [ ("ro_ar",
     { name := "Aromanian"
       pathPre := "/ro_ar/"
       catPre := "/ro_ar/"
       categories :=
         [ "/ro_ar/actualitati"
         , "/ro_ar/actualitati/habarli"
         , "/ro_ar/actualitati/eveniment-top-ro_ar"
         , "/ro_ar/actualitati/focus"
         , "/ro_ar/teatru-armanescu"
         , "/ro_ar/teatru-armanescu/colinde-armanesti"
         , "/ro_ar/teatru-armanescu/umor-armanesc"
         , "/ro_ar/rubriti-di-cafi-stamana"
         , "/ro_ar/rubriti-di-cafi-stamana/pro-memoria-ro_ar"
         , "/ro_ar/rubriti-di-cafi-stamana/carnet-cultural"
         , "/ro_ar/rubriti-di-cafi-stamana/radio-priimnare"
         , "/ro_ar/cultura-si-adet-armanesti"
         , "/ro_ar/cultura-si-adet-armanesti/scriitori-armani"
         , "/ro_ar/cultura-si-adet-armanesti/pirmithi"
         , "/ro_ar/cultura-si-adet-armanesti/portreti"
         , "/ro_ar/cultura-si-adet-armanesti/oaspit-la-microfonlu-rri"
         , "/ro_ar/cultura-si-adet-armanesti/grai"
         , "/ro_ar/cultura-si-adet-armanesti/agenda-armaneasca"
         , "/ro_ar/informatii-ti-noi"
         , "/ro_ar/informatii-ti-noi/istoric-rri"
         , "/ro_ar/informatii-ti-noi/sectia-aromana"
         , "/ro_ar/informatii-ti-noi/premii"
         , "/ro_ar/ascultat-la-caftari" ] })
  , ("actualitate",
     { name := "Romanian News"
       pathPre := "/actualitate/"
       catPre := "/actualitate/"
       categories :=
         [ "/actualitate"
         , "/actualitate/stiri"
         , "/actualitate/alte-stiri"
         , "/actualitate/jurnal-romanesc"
         , "/actualitate/in-actualitate"
         , "/actualitate/alegeri-2024"
         , "/actualitate/alerte-si-sfaturi-de-calatorie"
         , "/actualitate/anti-fake-news"
         , "/actualitate/sport-la-rri"
         , "/actualitate/eveniment-top"
         , "/actualitate/focus" ] }) ]

/-- `BASE_URL`. -/
def BASE_URL : String := "https://www.rri.ro"

/-- Python `str.startswith`, at the character level. -/
def strStarts (pre s : String) : Bool := pre.data.isPrefixOf s.data

/-- `urljoin(BASE_URL, category_url)` for the category entry points, which
are either path-absolute references (joined onto the base) or already
absolute URLs (returned unchanged). -/
def urljoinBase (ref : String) : String :=
  if strStarts "/" ref then BASE_URL ++ ref else ref

/-! ## The remote site, as consumed by the crawler

`_fetch_page` (HTTP transport), BeautifulSoup, `_extract_links` and the
markup-selector part of `_extract_article` are external collaborators: a
fetched-and-parsed document is modelled by the data those collaborators
hand to the core — the discovered article/pagination link lists and the
extracted article fields.  A URL absent from the web is a fetch failure. -/

structure Doc where
  articleLinks : List String := []
  pageLinks : List String := []
  title : String := "Untitled"
  date : Option String := none
  content : String := ""
  audioUrl : Option String := none
  imageUrls : List String := []
deriving DecidableEq

/-- The remote site: an association list from URL to document. -/
abbrev Web := List (String × Doc)

/-- `_fetch_page` hitting the modelled web. -/
def lookupDoc (web : Web) (u : String) : Option Doc :=
  (List.find? (fun p => p.1 == u) web).map (·.2)

/-- The tail of `RRICrawler._extract_article`: assemble the `Article` from
the extracted fields, deriving `category` from the URL and truncating
`image_urls` to the first 5 (`image_urls[:5]`). -/
def extractArticle (catPre : String) (d : Doc) (url : String) : Article :=
  { url := url
    title := d.title
    date := d.date
    category := categoryOfPath catPre (urlparsePath url)
    content := d.content
    audio_url := d.audioUrl
    image_urls := d.imageUrls.take 5
    crawled_at := "" }

/-! ## Crawl state -/

/-- The crawler's mutable state together with the durable store.
`index`, `failed` live in memory; `savedIndex`, `savedFailed` are the
snapshots last flushed to `index.json` / `progress.json`; `storage` is the
`articles/` directory (filename-keyed).  `artAttempts`, `artSuccesses` and
`encountered` are ghost instrumentation: article-fetch calls issued,
article fetches that returned a document, and every article link seen by
the traversal (before the index check). -/
structure CrawlState where
  index : List IndexEntry
  savedIndex : List IndexEntry
  storage : List (String × Article)
  failed : List String
  savedFailed : List String
  pagesToVisit : List String
  visitedPages : List String
  newArticles : Nat
  artAttempts : Nat
  artSuccesses : Nat
  encountered : List String
deriving DecidableEq

/-- `self.index[url]` lookup. -/
def lookupEntry (idx : List IndexEntry) (u : String) : Option IndexEntry :=
  List.find? (fun e => e.url == u) idx

/-- Python `dict` assignment `self.index[url] = entry`: replace in place if
the key is present, else append (dicts preserve insertion order). -/
def insertEntry : List IndexEntry → IndexEntry → List IndexEntry
  | [], e => [e]
  | x :: t, e => if x.url == e.url then e :: t else x :: insertEntry t e

/-- Writing `articles/<filename>` (overwrite if the file exists). -/
def insertStored : List (String × Article) → String → Article → List (String × Article)
  | [], fn, a => [(fn, a)]
  | p :: t, fn, a => if p.1 == fn then (fn, a) :: t else p :: insertStored t fn a

/-- `set.add`. -/
def insertSet (l : List String) (u : String) : List String :=
  if l.contains u then l else l ++ [u]

/-- The `IndexEntry` appended by `crawl_category` after saving an article. -/
def mkEntry (aurl : String) (art : Article) (fn : String) : IndexEntry :=
  { url := aurl
    title := art.title
    date := art.date
    category := art.category
    filename := fn }

/-- One iteration of the `for article_url in article_links` body.  Returns
the new state together with the intermediate states passed through (the
points at which an abrupt stop could observe the store). -/
def processArticle (web : Web) (catPre : String) (s : CrawlState) (aurl : String) :
    CrawlState × List CrawlState :=
  if (lookupEntry s.index aurl).isSome then (s, [])
  else
    match lookupDoc web aurl with
    | none =>
      let s1 := { s with artAttempts := s.artAttempts + 1,
                         failed := insertSet s.failed aurl }
      (s1, [s1])
    | some d =>
      let art := extractArticle catPre d aurl
      let fn := urlToFilename catPre aurl
      let s1 := { s with artAttempts := s.artAttempts + 1,
                         artSuccesses := s.artSuccesses + 1 }
      let s2 := { s1 with storage := insertStored s1.storage fn art }
      let s3 := { s2 with index := insertEntry s2.index (mkEntry aurl art fn),
                          newArticles := s2.newArticles + 1 }
      if s3.newArticles % 10 == 0 then
        let s4 := { s3 with savedIndex := s3.index, savedFailed := s3.failed }
        (s4, [s1, s2, s3, s4])
      else (s3, [s1, s2, s3])

/-- The whole `for article_url in article_links` loop. -/
def processArticles (web : Web) (catPre : String) :
    CrawlState → List String → CrawlState × List CrawlState
  | s, [] => (s, [])
  | s, a :: rest =>
    let r := processArticle web catPre s a
    let r2 := processArticles web catPre r.1 rest
    (r2.1, r.2 ++ r2.2)

/-- One iteration of the `while pages_to_visit` loop body (the pop, the
visited check, the page fetch, the article loop, the pagination append). -/
def stepPage (web : Web) (catPre : String) (s : CrawlState) :
    CrawlState × List CrawlState :=
  match s.pagesToVisit with
  | [] => (s, [])
  | u :: rest =>
    let s0 := { s with pagesToVisit := rest }
    if s0.visitedPages.contains u then (s0, [s0])
    else
      let s1 := { s0 with visitedPages := u :: s0.visitedPages }
      match lookupDoc web u with
      | none =>
        let s2 := { s1 with failed := insertSet s1.failed u }
        (s2, [s1, s2])
      | some d =>
        let s2 := { s1 with encountered := s1.encountered ++ d.articleLinks }
        let r := processArticles web catPre s2 d.articleLinks
        let s4 := { r.1 with pagesToVisit :=
          r.1.pagesToVisit ++ d.pageLinks.filter (fun l => !(r.1.visitedPages.contains l)) }
        (s4, [s1, s2] ++ r.2 ++ [s4])

/-- The loop guard `pages_to_visit and len(visited_pages) < max_pages`. -/
def crawlGuard (maxPages : Nat) (s : CrawlState) : Prop :=
  s.pagesToVisit ≠ [] ∧ s.visitedPages.length < maxPages

instance (maxPages : Nat) (s : CrawlState) : Decidable (crawlGuard maxPages s) :=
  inferInstanceAs (Decidable (_ ∧ _))

/-- The `while` loop of `crawl_category`, fuel-indexed.  `none` means the
fuel ran out; a `some` result is the state at the first falsification of
the guard, together with the full trace of intermediate states. -/
def crawlLoop (web : Web) (catPre : String) (maxPages : Nat) :
    Nat → CrawlState → Option (CrawlState × List CrawlState)
  | 0, s => if crawlGuard maxPages s then none else some (s, [])
  | fuel + 1, s =>
    if crawlGuard maxPages s then
      match crawlLoop web catPre maxPages fuel (stepPage web catPre s).1 with
      | none => none
      | some r2 => some (r2.1, (stepPage web catPre s).2 ++ r2.2)
    else some (s, [])

/-- One summand of the termination measure: visiting a page can add at
most its pagination links to the queue, and a URL is visited at most
once. -/
def docWeight (p : String × Doc) : Nat := 1 + p.2.pageLinks.length

/-- Total weight of the web pages not yet visited. -/
def webWeight (web : Web) (visited : List String) : Nat :=
  ((web.filter (fun p => !(visited.contains p.1))).map docWeight).sum

/-- Fuel sufficient for the loop to reach its guard (proved below). -/
def fuelFor (web : Web) (s : CrawlState) : Nat :=
  s.pagesToVisit.length + webWeight web s.visitedPages

/-- Entry state of `crawl_category category_url`: the queue holds the
joined entry URL, the visit set and the per-run counters are fresh, and
the store (`index`, `storage`, ...) is carried in from `prev`. -/
def initState (prev : CrawlState) (categoryUrl : String) : CrawlState :=
  { prev with
    pagesToVisit := [urljoinBase categoryUrl]
    visitedPages := []
    newArticles := 0
    artAttempts := 0
    artSuccesses := 0
    encountered := [] }

/-- `crawl_category`, run from a carried-in store. -/
def crawlCategory (web : Web) (catPre : String) (maxPages : Nat)
    (categoryUrl : String) (prev : CrawlState) : Option (CrawlState × List CrawlState) :=
  let s0 := initState prev categoryUrl
  crawlLoop web catPre maxPages (fuelFor web s0) s0

/-- The trace of a `crawl_category` run, initial state included. -/
def crawlTrace (web : Web) (catPre : String) (maxPages : Nat)
    (categoryUrl : String) (prev : CrawlState) : List CrawlState :=
  let s0 := initState prev categoryUrl
  match crawlLoop web catPre maxPages (fuelFor web s0) s0 with
  | none => [s0]
  | some r => s0 :: r.2

/-- The unconditional per-category flush performed by `crawl_all` (and by
`main` after a single-category run): `_save_index(); _save_progress()`. -/
def flushState (s : CrawlState) : CrawlState :=
  { s with savedIndex := s.index, savedFailed := s.failed }

/-- A state with nothing crawled and an empty store. -/
def emptyState : CrawlState :=
  { index := [], savedIndex := [], storage := [], failed := [], savedFailed := []
    pagesToVisit := [], visitedPages := [], newArticles := 0
    artAttempts := 0, artSuccesses := 0, encountered := [] }

/-! ## JSON and `RRICrawler._load_state`

JSON values are modelled inductively; a persisted file is either missing,
unreadable (I/O error or `json.JSONDecodeError`), or holds a parsed value.
Field values of well-formed records are modelled as strings (the
surrounding code only ever stores strings there). -/

inductive Json where
  | null
  | bool (b : Bool)
  | num (n : Int)
  | str (s : String)
  | arr (items : List Json)
  | obj (fields : List (String × Json))

inductive FileState where
  | missing
  | unreadable
  | content (j : Json)

def jLookup (fields : List (String × Json)) (k : String) : Option Json :=
  (List.find? (fun p => p.1 == k) fields).map (·.2)

def getStr : Json → Option String
  | .str s => some s
  | _ => none

/-- An optional string field (`date` may be JSON `null`). -/
def getOptStr : Json → Option (Option String)
  | .null => some none
  | .str s => some (some s)
  | _ => none

/-- The field names of the `IndexEntry` dataclass. -/
def indexEntryKeys : List String := ["url", "title", "date", "category", "filename"]

/-- `IndexEntry(**item)`: succeeds iff `item` is an object whose key set
is exactly the dataclass's field set (a missing or extra keyword raises
`TypeError`); the values are read off as strings. -/
def parseItem : Json → Option IndexEntry
  | .obj fields =>
    if indexEntryKeys.all (fun k => (jLookup fields k).isSome)
        && fields.all (fun p => indexEntryKeys.contains p.1) then
      match jLookup fields "url", jLookup fields "title", jLookup fields "date",
            jLookup fields "category", jLookup fields "filename" with
      | some ju, some jt, some jd, some jc, some jf =>
        match getStr ju, getStr jt, getOptStr jd, getStr jc, getStr jf with
        | some u, some t, some d, some c, some f =>
          some { url := u, title := t, date := d, category := c, filename := f }
        | _, _, _, _, _ => none
      | _, _, _, _, _ => none
    else none
  | _ => none

/-- The `for item in json.load(f)` loop: records are inserted one by one;
the first record that fails to deserialize raises inside the single
enclosing `try`, so it and everything after it are dropped while the
records already inserted are kept.  The `Bool` reports whether the
exception handler (and so `logger.warning`) ran. -/
def loadIndexItems : List Json → List IndexEntry → List IndexEntry × Bool
  | [], acc => (acc, false)
  | j :: rest, acc =>
    match parseItem j with
    | some e => loadIndexItems rest (insertEntry acc e)
    | none => (acc, true)

/-- Loading `index.json`.  A missing file is skipped silently; an
unreadable file or a non-sequence payload trips the handler and leaves the
index empty.  Iterating a JSON object or string yields its keys or
characters (each a string, which then fails record deserialization). -/
def loadIndexFile : FileState → List IndexEntry × Bool
  | .missing => ([], false)
  | .unreadable => ([], true)
  | .content (.arr items) => loadIndexItems items []
  | .content (.obj fields) => loadIndexItems (fields.map (fun p => Json.str p.1)) []
  | .content (.str s) => loadIndexItems (s.data.map (fun c => Json.str (String.mk [c]))) []
  | .content _ => ([], true)

def allStrings (items : List Json) : Option (List String) :=
  items.mapM getStr

/-- Loading `progress.json`: `set(data.get('failed_urls', []))` under the
same single `try`. -/
def loadProgressFile : FileState → List String × Bool
  | .missing => ([], false)
  | .unreadable => ([], true)
  | .content (.obj fields) =>
    match jLookup fields "failed_urls" with
    | none => ([], false)
    | some (.arr items) =>
      match allStrings items with
      | some urls => (urls, false)
      | none => ([], true)
    | some (.str s) => (s.data.map (fun c => String.mk [c]), false)
    | some (.obj fields2) => (fields2.map (·.1), false)
    | some _ => ([], true)
  | .content _ => ([], true)

/-- The result of `_load_state`, with the warning flags of the two
`except` handlers. -/
structure LoadResult where
  index : List IndexEntry
  failed : List String
  warnedIndex : Bool
  warnedProgress : Bool
deriving DecidableEq

/-- `RRICrawler._load_state`: both loads are attempted, neither can raise
to the caller, and each failure is confined to its own table. -/
def loadState (indexFile progressFile : FileState) : LoadResult :=
  let li := loadIndexFile indexFile
  let lp := loadProgressFile progressFile
  { index := li.1, failed := lp.1, warnedIndex := li.2, warnedProgress := lp.2 }

/-! ## `RRICrawler.__init__` (constructor validation) -/

/-- The on-disk state handed to a fresh crawler. -/
structure DurableStore where
  indexFile : FileState
  progressFile : FileState

/-- A single-quote character, for building the constructor's error
message. -/
def squote : String := String.mk [Char.ofNat 39]

/-- `", ".join(SECTIONS.keys())`. -/
def availableSections : String := String.intercalate ", " (SECTIONS.map (·.1))

/-- The `ValueError` message of `__init__` for an unknown section. -/
def unknownSectionMsg (sec : String) : String :=
  "Unknown section " ++ squote ++ sec ++ squote ++ ". Available: " ++ availableSections

/-- `RRICrawler.__init__`: validate the section first; only on success is
the output directory created and the persisted state loaded. -/
def constructCrawler (sec : String) (store : DurableStore) :
    Except String (SectionConfig × LoadResult) :=
  match List.find? (fun p => p.1 == sec) SECTIONS with
  | none => .error (unknownSectionMsg sec)
  | some p => .ok (p.2, loadState store.indexFile store.progressFile)

/-! ## `find_correspondences.py` -/

/-- `os.path.basename`: the part after the last `'/'`. -/
def basename (p : String) : String :=
  String.mk ((splitOnSlash p.data).getLastD p.data)

/-- Whether an image reference survives the data-URL/empty filter. -/
def goodRef (u : String) : Bool := !(u == "" || strStarts "data:" u)

/-- `find_romanian_articles_with_image`, instrumented: the first component
lists the needles actually handed to the `grep` subprocess (modelled by
the oracle `g`, which returns the matching file paths; a timeout or search
error is an oracle returning `[]`). -/
def findRomanianWithImage (g : String → List String) (u : String) :
    List String × List String :=
  if u == "" || strStarts "data:" u then ([], [])
  else ([u], (g u).map basename)

/-- The `for image_url in image_urls` loop of `main`: skip empty/data
references, otherwise search and accumulate into `romanian_matches`. -/
def collectMatches (g : String → List String) : List String → List String × List String
  | [] => ([], [])
  | u :: rest =>
    let r := collectMatches g rest
    if u == "" || strStarts "data:" u then r
    else
      let f := findRomanianWithImage g u
      (f.1 ++ r.1, f.2 ++ r.2)

/-- One corpus-A article file: its name and, when it parsed, its
`image_urls` field (`none` models a `json.JSONDecodeError`, which the
per-file `except` turns into a skip). -/
structure AFile where
  name : String
  parsed : Option (List String)
deriving DecidableEq

/-- Needles searched and matches found for one corpus-A file. -/
def processAFile (g : String → List String) (f : AFile) : List String × List String :=
  match f.parsed with
  | none => ([], [])
  | some urls => collectMatches g urls

/-- One output record (`{"aromanian_article": ..., "romanian_articles": [...]}`). -/
structure CorrespondenceRecord where
  aromanian_article : String
  romanian_articles : List String
deriving DecidableEq

/-- Insert into a strictly sorted list, dropping duplicates: the result of
`sorted(list(set(...)))` built incrementally. -/
def insertSortedU (u : String) : List String → List String
  | [] => [u]
  | v :: t =>
    if u = v then v :: t
    else if u < v then u :: v :: t
    else v :: insertSortedU u t

/-- `sorted(list(set(xs)))`: the strictly sorted enumeration of the
distinct elements of `xs`. -/
def sortDedup : List String → List String
  | [] => []
  | u :: t => insertSortedU u (sortDedup t)

/-- Insertion step of sorting corpus A's files by name. -/
def insertByName (f : AFile) : List AFile → List AFile
  | [] => [f]
  | x :: t => if f.name ≤ x.name then f :: x :: t else x :: insertByName f t

/-- `sorted(aromanian_dir.glob("*.json"))`: the files in name order. -/
def sortFiles : List AFile → List AFile
  | [] => []
  | f :: t => insertByName f (sortFiles t)

/-- The whole matcher run: corpus A in sorted order; a record is appended
iff some match was found, its match set deduplicated and sorted. -/
def runMatcher (g : String → List String) (files : List AFile) :
    List CorrespondenceRecord :=
  (sortFiles files).filterMap (fun f =>
    let ms := (processAFile g f).2
    if ms.isEmpty then none
    else some { aromanian_article := f.name, romanian_articles := sortDedup ms })

/-! ## Declarative readings of the filename rule (spec side)

These definitions follow the wording of the spec, to be compared with the
scanning implementation `_url_to_filename` above. -/

/-- The spec's id rule: `id` is the numeric suffix captured by the
pattern `-id<digits>.html` at the end of the URL. -/
def IsIdDecomposition (url id : String) : Prop :=
  ∃ a : String, url = a ++ "-id" ++ id ++ ".html" ∧ id ≠ "" ∧
    ∀ c ∈ id.data, isDigitChar c = true

/-- The spec's category rule: `c` is a path segment captured by the
section's category pattern — an occurrence of the pattern's literal part
followed by a maximal non-empty run of non-`'/'` characters. -/
def IsCategoryCapture (catPre path c : String) : Prop :=
  ∃ x y : String, path = x ++ catPre ++ c ++ y ∧ c ≠ "" ∧
    (∀ ch ∈ c.data, ch ≠ '/') ∧ (y = "" ∨ strStarts "/" y = true)

/-! ## Flushed-but-unindexed bookkeeping (for the checkpoint bound) -/

/-- Filenames present in the last flushed `index.json` snapshot. -/
def savedFilenames (s : CrawlState) : List String :=
  s.savedIndex.map (·.filename)

/-- The persisted-but-unindexed records: article files in storage whose
filename is absent from the flushed index snapshot. -/
def unflushedCount (s : CrawlState) : Nat :=
  (s.storage.filter (fun p => !(savedFilenames s).contains p.1)).length

/-- Every article record in storage is covered by an in-memory index
entry (holds between article-processing steps). -/
def StorageSynced (s : CrawlState) : Prop :=
  ∀ p ∈ s.storage, ∃ e ∈ s.index, e.filename = p.1

/-- Every index entry (in memory and in the flushed snapshot) has a
backing article record in storage with the same filename. -/
def Backed (s : CrawlState) : Prop :=
  (∀ e ∈ s.index, ∃ p ∈ s.storage, p.1 = e.filename) ∧
  (∀ e ∈ s.savedIndex, ∃ p ∈ s.storage, p.1 = e.filename)

/-- The page-traversal component of the state: queue, visit set, and the
article links seen.  Article processing never touches these, so the
traversal (and hence which article links are discovered, and in which
order) is independent of the carried-in store. -/
def proj3 (s : CrawlState) : List String × List String × List String :=
  (s.pagesToVisit, s.visitedPages, s.encountered)

/-- Every article link seen so far whose fetch would succeed is already in
the in-memory index (holds between page visits). -/
def IndexedAll (web : Web) (s : CrawlState) : Prop :=
  ∀ a ∈ s.encountered, (lookupDoc web a).isSome = true →
    (lookupEntry s.index a).isSome = true

/-! ## Concrete fixtures for counterexamples and witnesses -/

/-- Article URL number `i` of the checkpoint-bound fixture. -/
def artUrlC1 (i : Nat) : String := "/x/c/a-id" ++ toString i ++ ".html"

/-- A web whose single category page links 10 fresh articles: enough to
reach the tenth-article flush point. -/
def webC1 : Web :=
  ("https://www.rri.ro/x/c", { articleLinks := (List.range 10).map artUrlC1 }) ::
    (List.range 10).map (fun i => (artUrlC1 i, {}))

/-- The trace of crawling the fixture category from an empty store. -/
def traceC1 : List CrawlState := crawlTrace webC1 "/x/" 5 "/x/c" emptyState

/-- A web whose single category page links one article whose fetch always
fails. -/
def webC4 : Web := [("https://www.rri.ro/x/c", { articleLinks := ["/x/c/a-id0.html"] })]

/-- First run over `webC4` from an empty store. -/
def runC4a : CrawlState :=
  ((crawlCategory webC4 "/x/" 5 "/x/c" emptyState).getD (emptyState, [])).1

/-- Second run over `webC4`, with the state persisted by the first run
(category-end flush included) carried over. -/
def runC4b : CrawlState :=
  ((crawlCategory webC4 "/x/" 5 "/x/c" (flushState runC4a)).getD (emptyState, [])).1

/-- Two distinct article URLs in the same category sharing the numeric id
`7`: both derive the storage filename `cat_7.json`. -/
def urlC9a : String := "https://www.rri.ro/ro_ar/cat/alpha-id7.html"

def urlC9b : String := "https://www.rri.ro/ro_ar/cat/beta-id7.html"

/-- A web whose category page links the two colliding articles. -/
def webC9 : Web :=
  [ ("https://www.rri.ro/ro_ar/cat", { articleLinks := [urlC9a, urlC9b] })
  , (urlC9a, { title := "A" })
  , (urlC9b, { title := "B" }) ]

/-- The final state after crawling the colliding-filename fixture. -/
def runC9 : CrawlState :=
  ((crawlCategory webC9 "/ro_ar/" 5 "/ro_ar/cat" emptyState).getD (emptyState, [])).1

/-- A well-formed `index.json` record. -/
def goodItem1 : Json :=
  .obj [("url", .str "u1"), ("title", .str "t1"), ("date", .null),
        ("category", .str "c"), ("filename", .str "f1.json")]

/-- A malformed record: the `url` key is missing, so `IndexEntry(**item)`
raises `TypeError`. -/
def badItem : Json :=
  .obj [("title", .str "t"), ("date", .null),
        ("category", .str "c"), ("filename", .str "f.json")]

/-- A second well-formed record, placed after the malformed one. -/
def goodItem2 : Json :=
  .obj [("url", .str "u2"), ("title", .str "t2"), ("date", .null),
        ("category", .str "c"), ("filename", .str "f2.json")]

/-- What per-record fail-closed loading (the claimed behaviour) would
produce: skip exactly the records that fail to deserialize. -/
def perRecordLoadIndex (items : List Json) : List IndexEntry :=
  (items.filterMap parseItem).foldl insertEntry []

/-- A corpus-A file with one searchable image and one data URL. -/
def fileC8a : AFile := { name := "a.json", parsed := some ["http://x/img1.jpg", "data:image/png;base64,AAA"] }

/-- A corpus-A file with no images. -/
def fileC8b : AFile := { name := "b.json", parsed := some [] }

/-- A grep oracle: corpus B contains the shared image URL in two files. -/
def gC8 : String → List String := fun u =>
  if u == "http://x/img1.jpg" then
    ["output_actualitate/articles/m2.json", "output_actualitate/articles/m1.json"]
  else []

/-- An on-disk store for the constructor witness. -/
def storeC10 : DurableStore := { indexFile := .missing, progressFile := .missing }

/-! # Theorems -/

/-! ## C10: constructor validation -/

/-- C10: constructing the crawler with a section name not in the
configured section table raises a `ValueError` naming the available
sections ("ro_ar, actualitate"), independently of (hence before) any
persisted state or directory; for every configured section name,
construction succeeds. -/
theorem claim_C10_theorem :
    (∀ sec store store2, sec ∉ SECTIONS.map Prod.fst →
        constructCrawler sec store = Except.error (unknownSectionMsg sec) ∧
        constructCrawler sec store = constructCrawler sec store2) ∧
    (∀ sec store, sec ∈ SECTIONS.map Prod.fst →
        ∃ v, constructCrawler sec store = Except.ok v) ∧
    availableSections = "ro_ar, actualitate" := by
  refine ⟨?_, ?_, by decide⟩
  · intro sec store store2 h
    have hf : List.find? (fun p => p.1 == sec) SECTIONS = none := by
      rw [List.find?_eq_none]
      intro x hx hpx
      have hx1 : x.1 = sec := by simpa using hpx
      exact h (hx1 ▸ List.mem_map_of_mem Prod.fst hx)
    exact ⟨by simp [constructCrawler, hf], by simp [constructCrawler, hf]⟩
  · intro sec store h
    simp only [SECTIONS, List.map_cons, List.map_nil, List.mem_cons,
      List.not_mem_nil, or_false] at h
    rcases h with rfl | rfl
    · exact ⟨_, rfl⟩
    · exact ⟨_, rfl⟩

/-- Witness for C10 at a concrete unknown and concrete known section. -/
theorem claim_C10_witness :
    constructCrawler "bogus" storeC10
        = Except.error (unknownSectionMsg "bogus") ∧
    ∃ v, constructCrawler "ro_ar" storeC10 = Except.ok v := by
  refine ⟨(claim_C10_theorem.1 "bogus" storeC10 storeC10 (by decide)).1, ?_⟩
  exact claim_C10_theorem.2.1 "ro_ar" storeC10 (by decide)

/-! ## C7: image-filter law -/

/-- Every needle handed to the grep subprocess passes the filter. -/
theorem collectMatches_needles_good (g : String → List String) (urls : List String) :
    (collectMatches g urls).1.all goodRef = true := by
  induction urls with
  | nil => rfl
  | cons u rest ih =>
    by_cases h : (u == "" || strStarts "data:" u) = true
    · simpa [collectMatches, h] using ih
    · have hg : goodRef u = true := by
        simp only [goodRef, Bool.not_eq_true']
        simpa using h
      simp [collectMatches, h, findRomanianWithImage, hg, ih]

/-- Dropping the empty/data references from `image_urls` changes neither
the searched needles nor the collected matches. -/
theorem collectMatches_filter_good (g : String → List String) (urls : List String) :
    collectMatches g (urls.filter goodRef) = collectMatches g urls := by
  induction urls with
  | nil => rfl
  | cons u rest ih =>
    by_cases h : (u == "" || strStarts "data:" u) = true
    · have hg : goodRef u = false := by simp [goodRef, h]
      simp [List.filter_cons, hg, collectMatches, h, ih]
    · have hg : goodRef u = true := by simpa [goodRef] using h
      simp [List.filter_cons, hg, collectMatches, h, ih]

/-- C7: an image reference that is empty or begins with `data:` never
triggers a corpus-B search (every searched needle passes the filter) and
never contributes to a record's match set (removing those references
leaves the needles and the match set unchanged). -/
theorem claim_C7_theorem :
    ∀ (g : String → List String) (n : String) (urls : List String),
      (processAFile g { name := n, parsed := some urls }).1.all goodRef = true ∧
      processAFile g { name := n, parsed := some urls }
        = processAFile g { name := n, parsed := some (urls.filter goodRef) } := by
  intro g n urls
  exact ⟨collectMatches_needles_good g urls,
    by simpa [processAFile] using (collectMatches_filter_good g urls).symm⟩

/-! ## C9: filename derivation is not injective -/

/-- C9: two distinct article URLs (same category, same numeric id) derive
the same storage filename; crawling both leaves two IndexEntries pointing
at one storage record, which holds the article saved second. -/
theorem claim_C9_theorem :
    urlC9a ≠ urlC9b ∧
    urlToFilename "/ro_ar/" urlC9a = "cat_7.json" ∧
    urlToFilename "/ro_ar/" urlC9b = "cat_7.json" ∧
    (∃ e ∈ runC9.index, e.url = urlC9a ∧ e.filename = "cat_7.json") ∧
    (∃ e ∈ runC9.index, e.url = urlC9b ∧ e.filename = "cat_7.json") ∧
    (runC9.storage.filter (fun p => p.1 == "cat_7.json")).length = 1 ∧
    (∃ p ∈ runC9.storage, p.1 = "cat_7.json" ∧ p.2.title = "B") := by
  refine ⟨by decide, by decide, by decide, by decide, by decide, by decide, by decide⟩

/-! ## C5: state-load resilience -/

/-- A run of well-formed records followed by a failing record: everything
before the failure is kept, everything from it on is dropped, and the
handler (warning) runs. -/
theorem loadIndexItems_append_bad (bad : Json) (hbad : parseItem bad = none) :
    ∀ (pre : List Json), (∀ j ∈ pre, (parseItem j).isSome) →
      ∀ (rest : List Json) (acc : List IndexEntry),
        loadIndexItems (pre ++ bad :: rest) acc
          = ((pre.filterMap parseItem).foldl insertEntry acc, true) := by
  intro pre
  induction pre with
  | nil => intro _ rest acc; simp [loadIndexItems, hbad]
  | cons j t ih =>
    intro hgood rest acc
    obtain ⟨e, he⟩ := Option.isSome_iff_exists.mp (hgood j (by simp))
    have ht : ∀ x ∈ t, (parseItem x).isSome := fun x hx => hgood x (by simp [hx])
    simp [loadIndexItems, he, ih ht rest (insertEntry acc e), List.filterMap_cons]

/-- A fully well-formed record sequence loads completely, no warning. -/
theorem loadIndexItems_all_good :
    ∀ (items : List Json), (∀ j ∈ items, (parseItem j).isSome) →
      ∀ (acc : List IndexEntry),
        loadIndexItems items acc
          = ((items.filterMap parseItem).foldl insertEntry acc, false) := by
  intro items
  induction items with
  | nil => intro _ acc; rfl
  | cons j t ih =>
    intro hgood acc
    obtain ⟨e, he⟩ := Option.isSome_iff_exists.mp (hgood j (by simp))
    have ht : ∀ x ∈ t, (parseItem x).isSome := fun x hx => hgood x (by simp [hx])
    simp [loadIndexItems, he, ih ht (insertEntry acc e), List.filterMap_cons]

/-- C5 counterexample: the code does not fail closed per-record — a
malformed record drops every later record (so the index is neither the
per-record result nor empty) — and a missing index file produces no
warning at all. -/
theorem claim_C5_counterexample :
    (loadIndexFile (.content (.arr [goodItem1, badItem, goodItem2]))).1
        ≠ perRecordLoadIndex [goodItem1, badItem, goodItem2] ∧
    (loadIndexFile .missing).2 = false := by
  constructor
  · decide
  · rfl

/-- C5 (amended): `_load_state` is total (never raises to the caller).  A
missing file is skipped silently with that table empty; an unreadable
file logs a warning and leaves that table empty; a malformed record in
the index file logs a warning and aborts the remainder of the index load,
keeping exactly the records that preceded it; a fully well-formed index
file loads completely with no warning.  Each failure is confined to its
own table. -/
theorem claim_C5_theorem :
    ∀ (progF : FileState) (pre rest items : List Json) (bad : Json),
      (∀ j ∈ pre, (parseItem j).isSome) →
      parseItem bad = none →
      (∀ j ∈ items, (parseItem j).isSome) →
      loadState .missing progF
          = { index := [], failed := (loadProgressFile progF).1,
              warnedIndex := false, warnedProgress := (loadProgressFile progF).2 } ∧
      loadState .unreadable progF
          = { index := [], failed := (loadProgressFile progF).1,
              warnedIndex := true, warnedProgress := (loadProgressFile progF).2 } ∧
      loadState (.content (.arr (pre ++ bad :: rest))) progF
          = { index := (pre.filterMap parseItem).foldl insertEntry [],
              failed := (loadProgressFile progF).1,
              warnedIndex := true, warnedProgress := (loadProgressFile progF).2 } ∧
      loadState (.content (.arr items)) progF
          = { index := (items.filterMap parseItem).foldl insertEntry [],
              failed := (loadProgressFile progF).1,
              warnedIndex := false, warnedProgress := (loadProgressFile progF).2 } := by
  intro progF pre rest items bad hpre hbad hitems
  refine ⟨rfl, rfl, ?_, ?_⟩
  · simp [loadState, loadIndexFile, loadIndexItems_append_bad bad hbad pre hpre rest []]
  · simp [loadState, loadIndexFile, loadIndexItems_all_good items hitems []]

/-- Witness for C5 at the concrete three-record file. -/
theorem claim_C5_witness :
    loadState (.content (.arr [goodItem1, badItem, goodItem2])) .missing
      = { index := ([goodItem1].filterMap parseItem).foldl insertEntry [],
          failed := [], warnedIndex := true, warnedProgress := false } := by
  have h := claim_C5_theorem .missing [goodItem1] [goodItem2] [] badItem
    (by decide) (by decide) (by simp)
  simpa using h.2.2.1

/-! ## C3: filename derivation -/

theorem data_mk (l : List Char) : (String.mk l).data = l := rfl

theorem mk_data (s : String) : String.mk s.data = s := rfl

theorem dataDashId : "-id".data = ['-', 'i', 'd'] := rfl

theorem dataHtml : ".html".data = htmlSuffix := rfl

/-- `takeWhile` stops exactly at the first failing element. -/
theorem takeWhile_append_head (p : Char → Bool) (ys : List Char)
    (hy : ∀ y ∈ ys.head?, p y = false) :
    ∀ xs : List Char, (∀ c ∈ xs, p c = true) → (xs ++ ys).takeWhile p = xs := by
  intro xs
  induction xs with
  | nil =>
    intro _
    cases ys with
    | nil => rfl
    | cons y t =>
      have hpy : p y = false := hy y (by simp)
      simp [List.takeWhile_cons, hpy]
  | cons x t ih =>
    intro hxs
    have hx : p x = true := hxs x (by simp)
    simp [List.takeWhile_cons, hx, ih (fun c hc => hxs c (by simp [hc]))]

/-- The head surviving a `dropWhile` falsifies the predicate. -/
theorem dropWhile_head_false (p : Char → Bool) :
    ∀ (l : List Char) (y : Char) (t : List Char),
      l.dropWhile p = y :: t → p y = false := by
  intro l
  induction l with
  | nil => intro y t h; simp [List.dropWhile] at h
  | cons x xs ih =>
    intro y t h
    by_cases hx : p x = true
    · exact ih y t (by simpa [List.dropWhile_cons, hx] using h)
    · have hx2 : p x = false := by simpa using hx
      rw [List.dropWhile_cons, hx2] at h
      simp at h
      exact h.1 ▸ hx2

/-- Soundness half of the `-id(\d+)\.html$` scan: a URL of the matching
shape yields exactly its digit group. -/
theorem idSuffix_append (a ds : List Char) (hne : ds ≠ [])
    (hdig : ∀ c ∈ ds, isDigitChar c = true) :
    idSuffix (a ++ ['-', 'i', 'd'] ++ ds ++ htmlSuffix) = some ds := by
  have hrev : (a ++ ['-', 'i', 'd'] ++ ds ++ htmlSuffix).reverse
      = htmlSuffix.reverse ++ (ds.reverse ++ ('d' :: 'i' :: '-' :: a.reverse)) := by
    simp [List.reverse_append]
  have hlen : (htmlSuffix.reverse).length = 5 := rfl
  rw [idSuffix, hrev, List.take_left' hlen, if_pos rfl, List.drop_left' hlen]
  have htw : (ds.reverse ++ ('d' :: 'i' :: '-' :: a.reverse)).takeWhile isDigitChar
      = ds.reverse := by
    refine takeWhile_append_head isDigitChar _ ?_ ds.reverse
      (fun c hc => hdig c (List.mem_reverse.mp hc))
    intro y hy
    simp at hy
    subst hy
    decide
  have hemp : ds.reverse.isEmpty = false := by
    simp [List.isEmpty_iff, hne]
  simp only [idSuffixAux, htw]
  simp [hemp, List.drop_left]

/-- Completeness half: a successful scan really does come from a URL of
the matching shape. -/
theorem idSuffix_some_decomposition (url ds : List Char) (h : idSuffix url = some ds) :
    ∃ a, url = a ++ ['-', 'i', 'd'] ++ ds ++ htmlSuffix ∧ ds ≠ [] ∧
      ∀ c ∈ ds, isDigitChar c = true := by
  rw [idSuffix] at h
  by_cases h5 : url.reverse.take 5 = htmlSuffix.reverse
  case neg => rw [if_neg h5] at h; exact absurd h (by simp)
  rw [if_pos h5, idSuffixAux] at h
  by_cases hemp : ((url.reverse.drop 5).takeWhile isDigitChar).isEmpty = true
  · rw [hemp] at h; exact absurd h (by simp)
  have hemp2 : ((url.reverse.drop 5).takeWhile isDigitChar).isEmpty = false := by
    simpa using hemp
  rw [hemp2] at h
  simp only [Bool.false_eq_true, if_false] at h
  by_cases h3 : ((url.reverse.drop 5).drop
      ((url.reverse.drop 5).takeWhile isDigitChar).length).take 3 = ['d', 'i', '-']
  case neg => rw [if_neg h3] at h; exact absurd h (by simp)
  rw [if_pos h3] at h
  simp only [Option.some.injEq] at h
  obtain ⟨t, ht⟩ := List.takeWhile_prefix (l := url.reverse.drop 5) isDigitChar
  have hdropt : (url.reverse.drop 5).drop
      ((url.reverse.drop 5).takeWhile isDigitChar).length = t := by
    have h4 := List.drop_left ((url.reverse.drop 5).takeWhile isDigitChar) t
    rw [ht] at h4
    exact h4
  rw [hdropt] at h3
  have htt : t = ['d', 'i', '-'] ++ t.drop 3 := by
    conv_lhs => rw [← List.take_append_drop 3 t]
    rw [h3]
  refine ⟨(t.drop 3).reverse, ?_, ?_, ?_⟩
  · have hurl : url.reverse = htmlSuffix.reverse ++ url.reverse.drop 5 := by
      conv_lhs => rw [← List.take_append_drop 5 url.reverse]
      rw [h5]
    have : url = (url.reverse).reverse := by simp
    rw [this, hurl, ← ht, htt]
    simp [List.reverse_append, ← h]
  · rw [← h]
    intro hds
    rw [List.reverse_eq_nil_iff] at hds
    rw [hds] at hemp2
    simp at hemp2
  · intro c hc
    rw [← h] at hc
    exact List.mem_takeWhile_imp (List.mem_reverse.mp hc)

/-- Soundness of the category capture scan. -/
theorem searchCapture_sound (pre : List Char) :
    ∀ (s c : List Char), searchCapture pre s = some c →
      ∃ x y, s = x ++ pre ++ c ++ y ∧ c ≠ [] ∧ (∀ ch ∈ c, ch ≠ '/') ∧
        (y = [] ∨ ∃ t, y = '/' :: t) := by
  intro s
  induction s with
  | nil => intro c h; simp [searchCapture] at h
  | cons c0 cs ih =>
    intro c h
    rw [searchCapture] at h
    by_cases hp : pre.isPrefixOf (c0 :: cs)
    · rw [if_pos hp] at h
      obtain ⟨rest, hrest⟩ := List.isPrefixOf_iff_prefix.mp hp
      have hdrop : (c0 :: cs).drop pre.length = rest := by
        rw [← hrest]; exact List.drop_left _ _
      rw [hdrop] at h
      cases rest with
      | nil =>
        simp only [List.head?_nil] at h
        obtain ⟨x, y, hcs, hcne, hmem, hb⟩ := ih c h
        exact ⟨c0 :: x, y, by simp [hcs], hcne, hmem, hb⟩
      | cons r rt =>
        simp only [List.head?_cons] at h
        by_cases hr : (r != '/') = true
        · rw [if_pos hr] at h
          simp only [Option.some.injEq] at h
          have hrne : r ≠ '/' := bne_iff_ne.mp hr
          have hctw : c = r :: rt.takeWhile (· != '/') := by
            rw [← h]
            simp [List.takeWhile_cons, hr]
          refine ⟨[], (r :: rt).dropWhile (· != '/'), ?_, ?_, ?_, ?_⟩
          · rw [List.nil_append, ← hrest, List.append_assoc]
            congr 1
            conv_lhs => rw [← List.takeWhile_append_dropWhile (p := (· != '/')) (l := r :: rt)]
            rw [h]
          · rw [hctw]; simp
          · intro ch hch
            rw [← h] at hch
            have hpch := List.mem_takeWhile_imp (p := fun x => x != '/') (x := ch) hch
            exact bne_iff_ne.mp hpch
          · cases hd : (r :: rt).dropWhile (· != '/') with
            | nil => exact Or.inl rfl
            | cons y0 t2 =>
              right
              have := dropWhile_head_false (· != '/') (r :: rt) y0 t2 hd
              have hy0 : y0 = '/' := by simpa using this
              exact ⟨t2, by rw [hy0]⟩
        · rw [if_neg hr] at h
          obtain ⟨x, y, hcs, hcne, hmem, hb⟩ := ih c h
          exact ⟨c0 :: x, y, by simp [hcs], hcne, hmem, hb⟩
    · rw [if_neg hp] at h
      obtain ⟨x, y, hcs, hcne, hmem, hb⟩ := ih c h
      exact ⟨c0 :: x, y, by simp [hcs], hcne, hmem, hb⟩

/-- Completeness of the category capture scan: any occurrence of the
literal followed by a non-`'/'` character makes the search succeed. -/
theorem searchCapture_complete (pre : List Char) :
    ∀ (x : List Char) (r : Char) (y : List Char), r ≠ '/' →
      (searchCapture pre (x ++ pre ++ r :: y)).isSome = true := by
  intro x
  induction x with
  | nil =>
    intro r y hr
    rw [List.nil_append]
    cases hs : pre ++ r :: y with
    | nil => exact absurd hs (by simp)
    | cons c0 cs =>
      rw [searchCapture]
      have hp : pre.isPrefixOf (c0 :: cs) = true :=
        List.isPrefixOf_iff_prefix.mpr ⟨r :: y, hs⟩
      rw [if_pos hp]
      have hdrop : (c0 :: cs).drop pre.length = r :: y := by
        rw [← hs]; exact List.drop_left _ _
      rw [hdrop]
      simp only [List.head?_cons]
      have hrb : (r != '/') = true := bne_iff_ne.mpr hr
      rw [if_pos hrb]
      simp
  | cons x0 xt ih =>
    intro r y hr
    have hsh : (x0 :: xt) ++ pre ++ r :: y = x0 :: (xt ++ pre ++ r :: y) := by simp
    rw [hsh, searchCapture]
    by_cases hp : pre.isPrefixOf (x0 :: (xt ++ pre ++ r :: y))
    · rw [if_pos hp]
      cases hh : ((x0 :: (xt ++ pre ++ r :: y)).drop pre.length).head? with
      | none => simpa using ih r y hr
      | some r2 =>
        by_cases hr2 : (r2 != '/') = true
        · simp [hr2]
        · simpa [hr2] using ih r y hr
    · rw [if_neg hp]
      exact ih r y hr

/-- Case analysis of the computed article id against the spec's rule. -/
theorem articleIdOf_cases (url : String) :
    IsIdDecomposition url (articleIdOf url) ∨
      ((¬ ∃ d, IsIdDecomposition url d) ∧
        articleIdOf url = String.mk (fallbackId url.data)) := by
  rw [articleIdOf]
  cases h : idSuffix url.data with
  | some ds =>
    left
    obtain ⟨a, ha, hne, hdig⟩ := idSuffix_some_decomposition url.data ds h
    refine ⟨String.mk a, ?_, ?_, ?_⟩
    · apply String.ext
      simp only [String.data_append, dataDashId, dataHtml, data_mk]
      simpa using ha
    · intro he
      exact hne (by simpa using congrArg String.data he)
    · simpa using hdig
  | none =>
    right
    refine ⟨?_, rfl⟩
    rintro ⟨d, a, hurl, hdne, hdig⟩
    have hdata : url.data = a.data ++ ['-', 'i', 'd'] ++ d.data ++ htmlSuffix := by
      have h2 := congrArg String.data hurl
      simpa [String.data_append, dataDashId, dataHtml] using h2
    have hdne2 : d.data ≠ [] := by
      intro hd
      exact hdne (String.ext (by simp [hd]))
    have : idSuffix url.data = some d.data := by
      rw [hdata]; exact idSuffix_append _ _ hdne2 hdig
    rw [h] at this
    exact absurd this (by simp)

/-- Case analysis of the computed category against the spec's rule. -/
theorem categoryOfPath_cases (catPre path : String) :
    IsCategoryCapture catPre path (categoryOfPath catPre path) ∨
      (categoryOfPath catPre path = "unknown" ∧
        ¬ ∃ c, IsCategoryCapture catPre path c) := by
  rw [categoryOfPath]
  cases h : searchCapture catPre.data path.data with
  | some c =>
    left
    obtain ⟨x, y, hs, hne, hmem, hb⟩ := searchCapture_sound _ _ _ h
    refine ⟨String.mk x, String.mk y, ?_, ?_, ?_, ?_⟩
    · apply String.ext
      simp only [String.data_append, data_mk]
      simpa using hs
    · intro he
      exact hne (by simpa using congrArg String.data he)
    · simpa using hmem
    · rcases hb with h1 | ⟨t, ht⟩
      · exact Or.inl (String.ext (by simp [h1]))
      · right
        simp [strStarts, ht, List.isPrefixOf]
  | none =>
    right
    refine ⟨rfl, ?_⟩
    rintro ⟨c, x, y, hpath, hcne, hmem, _⟩
    obtain ⟨r, crest, hc⟩ : ∃ r crest, c.data = r :: crest := by
      cases hcd : c.data with
      | nil => exact absurd (String.ext hcd) hcne
      | cons r t => exact ⟨r, t, rfl⟩
    have hr : r ≠ '/' := hmem r (by simp [hc])
    have hiss : (searchCapture catPre.data path.data).isSome = true := by
      have hd : path.data = x.data ++ catPre.data ++ r :: (crest ++ y.data) := by
        have h2 := congrArg String.data hpath
        simp only [String.data_append, hc] at h2
        simpa using h2
      rw [hd]
      exact searchCapture_complete catPre.data x.data r (crest ++ y.data) hr
    rw [h] at hiss
    exact absurd hiss (by simp)

/-- C3: every derived storage filename is `<category>_<id>.json`, where
the id is the digit group of a `-id<digits>.html` suffix when the URL has
one (otherwise the last path segment with `.html` removed), and the
category is a segment captured by the section's pattern in the URL path
(otherwise `unknown`); in particular the spec's concrete example derives
`sub_4821.json`. -/
theorem claim_C3_theorem :
    (∀ catPre url : String,
      urlToFilename catPre url
          = categoryOfPath catPre (urlparsePath url) ++ "_" ++ articleIdOf url ++ ".json" ∧
      (IsIdDecomposition url (articleIdOf url) ∨
        ((¬ ∃ d, IsIdDecomposition url d) ∧
          articleIdOf url = String.mk (fallbackId url.data))) ∧
      (IsCategoryCapture catPre (urlparsePath url)
          (categoryOfPath catPre (urlparsePath url)) ∨
        (categoryOfPath catPre (urlparsePath url) = "unknown" ∧
          ¬ ∃ c, IsCategoryCapture catPre (urlparsePath url) c))) ∧
    urlToFilename "/category-x/" "https://example.org/category-x/sub/item-id4821.html"
        = "sub_4821.json" := by
  refine ⟨fun catPre url => ⟨rfl, articleIdOf_cases url, categoryOfPath_cases catPre _⟩, ?_⟩
  decide

/-! ## C8: matcher determinism -/

theorem insertSortedU_mem (u v : String) :
    ∀ l : List String, v ∈ insertSortedU u l ↔ v = u ∨ v ∈ l := by
  intro l
  induction l with
  | nil => simp [insertSortedU]
  | cons w t ih =>
    rw [insertSortedU]
    by_cases h1 : u = w
    · rw [if_pos h1]
      subst h1
      simp only [List.mem_cons]
      tauto
    · rw [if_neg h1]
      by_cases h2 : u < w
      · rw [if_pos h2]
        simp only [List.mem_cons]
      · rw [if_neg h2]
        simp only [List.mem_cons, ih]
        tauto

theorem insertSortedU_sorted (u : String) :
    ∀ l : List String, l.Pairwise (· < ·) → (insertSortedU u l).Pairwise (· < ·) := by
  intro l
  induction l with
  | nil => intro _; simp [insertSortedU]
  | cons w t ih =>
    intro hs
    rw [List.pairwise_cons] at hs
    obtain ⟨hw, ht⟩ := hs
    rw [insertSortedU]
    by_cases h1 : u = w
    · rw [if_pos h1]
      exact List.pairwise_cons.mpr ⟨hw, ht⟩
    · rw [if_neg h1]
      by_cases h2 : u < w
      · rw [if_pos h2]
        refine List.pairwise_cons.mpr ⟨?_, List.pairwise_cons.mpr ⟨hw, ht⟩⟩
        intro b hb
        rcases List.mem_cons.mp hb with rfl | hbt
        · exact h2
        · exact lt_trans h2 (hw b hbt)
      · rw [if_neg h2]
        have hwu : w < u := lt_of_le_of_ne (le_of_not_lt h2) (Ne.symm h1)
        refine List.pairwise_cons.mpr ⟨?_, ih ht⟩
        intro b hb
        rcases (insertSortedU_mem u b t).mp hb with rfl | hbt
        · exact hwu
        · exact hw b hbt

theorem sortDedup_sorted (l : List String) : (sortDedup l).Pairwise (· < ·) := by
  induction l with
  | nil => simp [sortDedup]
  | cons u t ih =>
    rw [sortDedup]
    exact insertSortedU_sorted u _ ih

theorem sortDedup_mem (v : String) :
    ∀ l : List String, v ∈ sortDedup l ↔ v ∈ l := by
  intro l
  induction l with
  | nil => simp [sortDedup]
  | cons u t ih =>
    rw [sortDedup, insertSortedU_mem]
    simp [ih]

theorem sortDedup_ne_nil (l : List String) (h : l ≠ []) : sortDedup l ≠ [] := by
  cases l with
  | nil => exact absurd rfl h
  | cons u t =>
    rw [sortDedup]
    intro he
    have hmem : u ∈ insertSortedU u (sortDedup t) :=
      (insertSortedU_mem u u (sortDedup t)).mpr (Or.inl rfl)
    rw [he] at hmem
    simp at hmem

theorem insertByName_perm (f : AFile) :
    ∀ l : List AFile, List.Perm (insertByName f l) (f :: l) := by
  intro l
  induction l with
  | nil => rw [insertByName]
  | cons x t ih =>
    rw [insertByName]
    by_cases h : f.name ≤ x.name
    · rw [if_pos h]
    · rw [if_neg h]
      exact List.Perm.trans (List.Perm.cons x ih) (List.Perm.swap f x t)

theorem insertByName_sorted (f : AFile) :
    ∀ l : List AFile, l.Pairwise (fun a b => a.name ≤ b.name) →
      (insertByName f l).Pairwise (fun a b => a.name ≤ b.name) := by
  intro l
  induction l with
  | nil => intro _; simp [insertByName]
  | cons x t ih =>
    intro hs
    rw [List.pairwise_cons] at hs
    obtain ⟨hx, ht⟩ := hs
    rw [insertByName]
    by_cases h : f.name ≤ x.name
    · rw [if_pos h]
      refine List.pairwise_cons.mpr ⟨?_, List.pairwise_cons.mpr ⟨hx, ht⟩⟩
      intro b hb
      rcases List.mem_cons.mp hb with rfl | hbt
      · exact h
      · exact le_trans h (hx b hbt)
    · rw [if_neg h]
      have hxf : x.name ≤ f.name := le_of_not_le h
      refine List.pairwise_cons.mpr ⟨?_, ih ht⟩
      intro b hb
      rcases (List.Perm.mem_iff (insertByName_perm f t)).mp hb with hb2
      rcases List.mem_cons.mp hb2 with rfl | hbt
      · exact hxf
      · exact hx b hbt

theorem sortFiles_perm (l : List AFile) : List.Perm (sortFiles l) l := by
  induction l with
  | nil => rw [sortFiles]
  | cons f t ih =>
    rw [sortFiles]
    exact List.Perm.trans (insertByName_perm f (sortFiles t)) (List.Perm.cons f ih)

theorem sortFiles_sorted (l : List AFile) :
    (sortFiles l).Pairwise (fun a b => a.name ≤ b.name) := by
  induction l with
  | nil => simp [sortFiles]
  | cons f t ih =>
    rw [sortFiles]
    exact insertByName_sorted f _ ih

/-- Two permutations of the same directory listing sort identically. -/
theorem sortFiles_eq_of_perm (l1 l2 : List AFile) (hp : List.Perm l1 l2)
    (hn : (l1.map AFile.name).Nodup) : sortFiles l1 = sortFiles l2 := by
  have hp2 : List.Perm (sortFiles l1) (sortFiles l2) :=
    ((sortFiles_perm l1).trans hp).trans (sortFiles_perm l2).symm
  have hn1 : ((sortFiles l1).map AFile.name).Nodup :=
    (List.Perm.nodup_iff ((sortFiles_perm l1).map AFile.name)).mpr hn
  have hn2 : ((sortFiles l2).map AFile.name).Nodup :=
    (List.Perm.nodup_iff (hp2.map AFile.name)).mp hn1
  have hlt1 : (sortFiles l1).Pairwise (fun a b => a.name < b.name) :=
    ((sortFiles_sorted l1).and (List.pairwise_map.mp hn1)).imp
      (fun h => lt_of_le_of_ne h.1 h.2)
  have hlt2 : (sortFiles l2).Pairwise (fun a b => a.name < b.name) :=
    ((sortFiles_sorted l2).and (List.pairwise_map.mp hn2)).imp
      (fun h => lt_of_le_of_ne h.1 h.2)
  haveI : IsAntisymm AFile (fun a b => a.name < b.name) :=
    ⟨fun a b h1 h2 => absurd h2 (lt_asymm h1)⟩
  exact List.eq_of_perm_of_sorted hp2 hlt1 hlt2

/-- C8: the matcher's output is a function of the corpora alone — any two
directory enumerations of corpus A (permutations with distinct filenames)
give byte-identical output; records appear in sorted filename order; each
record's match set is strictly sorted (hence deduplicated) and non-empty;
and a record is emitted for an article exactly when its computed match
set is non-empty. -/
theorem claim_C8_theorem :
    ∀ (g : String → List String) (l1 l2 files : List AFile),
      (List.Perm l1 l2 → (l1.map AFile.name).Nodup →
        runMatcher g l1 = runMatcher g l2) ∧
      (∀ r ∈ runMatcher g files,
        r.romanian_articles.Pairwise (· < ·) ∧ r.romanian_articles.Nodup ∧
          r.romanian_articles ≠ []) ∧
      (runMatcher g files).Pairwise
        (fun a b => a.aromanian_article ≤ b.aromanian_article) ∧
      (∀ f ∈ files, (processAFile g f).2 ≠ [] →
        ∃ r ∈ runMatcher g files, r.aromanian_article = f.name ∧
          r.romanian_articles = sortDedup (processAFile g f).2) ∧
      (∀ r ∈ runMatcher g files, ∃ f ∈ files, r.aromanian_article = f.name ∧
        (processAFile g f).2 ≠ [] ∧
          r.romanian_articles = sortDedup (processAFile g f).2) := by
  intro g l1 l2 files
  refine ⟨?_, ?_, ?_, ?_, ?_⟩
  · intro hp hn
    rw [runMatcher, runMatcher, sortFiles_eq_of_perm l1 l2 hp hn]
  · intro r hr
    rw [runMatcher, List.mem_filterMap] at hr
    obtain ⟨f, _, hf⟩ := hr
    by_cases hemp : ((processAFile g f).2).isEmpty
    · simp [hemp] at hf
    · simp only [hemp, Bool.false_eq_true, if_false, Option.some.injEq] at hf
      have hms : (processAFile g f).2 ≠ [] := by
        intro he
        rw [he] at hemp
        simp at hemp
      rw [← hf]
      refine ⟨sortDedup_sorted _, ?_, sortDedup_ne_nil _ hms⟩
      exact (sortDedup_sorted _).imp (fun h => ne_of_lt h)
  · rw [runMatcher]
    refine List.Pairwise.filterMap _ ?_ (sortFiles_sorted files)
    intro a b hab x hx y hy
    simp only [Option.mem_def] at hx hy
    by_cases ha : ((processAFile g a).2).isEmpty
    · simp [ha] at hx
    · by_cases hb2 : ((processAFile g b).2).isEmpty
      · simp [hb2] at hy
      · simp only [ha, hb2, Bool.false_eq_true, if_false, Option.some.injEq] at hx hy
        rw [← hx, ← hy]
        exact hab
  · intro f hf hms
    have hf2 : f ∈ sortFiles files := (List.Perm.mem_iff (sortFiles_perm files)).mpr hf
    have hemp : ((processAFile g f).2).isEmpty = false := by
      cases he : (processAFile g f).2 with
      | nil => exact absurd he hms
      | cons a t => simp [he]
    refine ⟨{ aromanian_article := f.name,
              romanian_articles := sortDedup (processAFile g f).2 }, ?_, rfl, rfl⟩
    rw [runMatcher, List.mem_filterMap]
    exact ⟨f, hf2, by simp [hemp]⟩
  · intro r hr
    rw [runMatcher, List.mem_filterMap] at hr
    obtain ⟨f, hfmem, hf⟩ := hr
    by_cases hemp : ((processAFile g f).2).isEmpty
    · simp [hemp] at hf
    · simp only [hemp, Bool.false_eq_true, if_false, Option.some.injEq] at hf
      have hms : (processAFile g f).2 ≠ [] := by
        intro he
        rw [he] at hemp
        simp at hemp
      exact ⟨f, (List.Perm.mem_iff (sortFiles_perm files)).mp hfmem,
        by rw [← hf], hms, by rw [← hf]⟩

/-- Witness for C8: the two enumeration orders of a concrete two-file
corpus produce identical output. -/
theorem claim_C8_witness :
    runMatcher gC8 [fileC8a, fileC8b] = runMatcher gC8 [fileC8b, fileC8a] :=
  (claim_C8_theorem gC8 [fileC8a, fileC8b] [fileC8b, fileC8a] []).1
    (by decide) (by decide)

/-! ## Crawl-state helper lemmas -/

theorem insertStored_mem (fn : String) (a : Article) :
    ∀ (st : List (String × Article)) (p : String × Article),
      p ∈ insertStored st fn a → p.1 = fn ∨ p ∈ st := by
  intro st
  induction st with
  | nil =>
    intro p hp
    rw [insertStored] at hp
    simp at hp
    exact Or.inl (by rw [hp])
  | cons q t ih =>
    intro p hp
    rw [insertStored] at hp
    by_cases h : (q.1 == fn) = true
    · rw [if_pos h] at hp
      rcases List.mem_cons.mp hp with rfl | hpt
      · exact Or.inl rfl
      · exact Or.inr (List.mem_cons.mpr (Or.inr hpt))
    · rw [if_neg h] at hp
      rcases List.mem_cons.mp hp with rfl | hpt
      · exact Or.inr (List.mem_cons.mpr (Or.inl rfl))
      · rcases ih p hpt with h1 | h2
        · exact Or.inl h1
        · exact Or.inr (List.mem_cons.mpr (Or.inr h2))

theorem insertStored_keys_sub (fn : String) (a : Article) :
    ∀ (st : List (String × Article)) (p : String × Article), p ∈ st →
      ∃ q ∈ insertStored st fn a, q.1 = p.1 := by
  intro st
  induction st with
  | nil => intro p hp; simp at hp
  | cons q t ih =>
    intro p hp
    rw [insertStored]
    by_cases h : (q.1 == fn) = true
    · rw [if_pos h]
      rcases List.mem_cons.mp hp with rfl | hpt
      · exact ⟨(fn, a), by simp, (beq_iff_eq.mp h).symm⟩
      · exact ⟨p, by simp [hpt], rfl⟩
    · rw [if_neg h]
      rcases List.mem_cons.mp hp with rfl | hpt
      · exact ⟨p, by simp, rfl⟩
      · obtain ⟨q2, hq2, he⟩ := ih p hpt
        exact ⟨q2, List.mem_cons.mpr (Or.inr hq2), he⟩

theorem insertStored_self_mem (fn : String) (a : Article) :
    ∀ st : List (String × Article), ∃ q ∈ insertStored st fn a, q.1 = fn := by
  intro st
  induction st with
  | nil => exact ⟨(fn, a), by rw [insertStored]; simp, rfl⟩
  | cons q t ih =>
    rw [insertStored]
    by_cases h : (q.1 == fn) = true
    · rw [if_pos h]
      exact ⟨(fn, a), by simp, rfl⟩
    · rw [if_neg h]
      obtain ⟨q2, hq2, he⟩ := ih
      exact ⟨q2, List.mem_cons.mpr (Or.inr hq2), he⟩

theorem insertEntry_mem (e : IndexEntry) :
    ∀ (idx : List IndexEntry) (x : IndexEntry),
      x ∈ insertEntry idx e → x = e ∨ x ∈ idx := by
  intro idx
  induction idx with
  | nil =>
    intro x hx
    rw [insertEntry] at hx
    simp at hx
    exact Or.inl hx
  | cons y t ih =>
    intro x hx
    rw [insertEntry] at hx
    by_cases h : (y.url == e.url) = true
    · rw [if_pos h] at hx
      rcases List.mem_cons.mp hx with rfl | hxt
      · exact Or.inl rfl
      · exact Or.inr (List.mem_cons.mpr (Or.inr hxt))
    · rw [if_neg h] at hx
      rcases List.mem_cons.mp hx with rfl | hxt
      · exact Or.inr (List.mem_cons.mpr (Or.inl rfl))
      · rcases ih x hxt with h1 | h2
        · exact Or.inl h1
        · exact Or.inr (List.mem_cons.mpr (Or.inr h2))

theorem insertEntry_self_mem (e : IndexEntry) :
    ∀ idx : List IndexEntry, e ∈ insertEntry idx e := by
  intro idx
  induction idx with
  | nil => rw [insertEntry]; simp
  | cons y t ih =>
    rw [insertEntry]
    by_cases h : (y.url == e.url) = true
    · rw [if_pos h]; simp
    · rw [if_neg h]
      exact List.mem_cons.mpr (Or.inr ih)

theorem lookupEntry_cons_pos (y : IndexEntry) (t : List IndexEntry) (x : String)
    (h : (y.url == x) = true) : lookupEntry (y :: t) x = some y :=
  List.find?_cons_of_pos t h

theorem lookupEntry_cons_neg (y : IndexEntry) (t : List IndexEntry) (x : String)
    (h : (y.url == x) = false) : lookupEntry (y :: t) x = lookupEntry t x :=
  List.find?_cons_of_neg t (by simp [h])

theorem lookupEntry_insert_mono (e : IndexEntry) :
    ∀ (idx : List IndexEntry) (x : String), (lookupEntry idx x).isSome = true →
      (lookupEntry (insertEntry idx e) x).isSome = true := by
  intro idx
  induction idx with
  | nil => intro x hx; simp [lookupEntry] at hx
  | cons y t ih =>
    intro x hx
    rw [insertEntry]
    by_cases h : (y.url == e.url) = true
    · rw [if_pos h]
      by_cases hex : (e.url == x) = true
      · rw [lookupEntry_cons_pos e t x hex]; rfl
      · have hex2 : (e.url == x) = false := by simpa using hex
        rw [lookupEntry_cons_neg e t x hex2]
        have hyx2 : (y.url == x) = false := by
          rw [beq_iff_eq.mp h]; exact hex2
        rw [lookupEntry_cons_neg y t x hyx2] at hx
        exact hx
    · rw [if_neg h]
      by_cases hyx : (y.url == x) = true
      · rw [lookupEntry_cons_pos y _ x hyx]; rfl
      · have hyx2 : (y.url == x) = false := by simpa using hyx
        rw [lookupEntry_cons_neg y _ x hyx2]
        rw [lookupEntry_cons_neg y t x hyx2] at hx
        exact ih x hx

theorem lookupEntry_insert_self (e : IndexEntry) :
    ∀ idx : List IndexEntry, (lookupEntry (insertEntry idx e) e.url).isSome = true := by
  intro idx
  induction idx with
  | nil =>
    rw [insertEntry, lookupEntry_cons_pos e [] e.url (by simp)]
    rfl
  | cons y t ih =>
    rw [insertEntry]
    by_cases h : (y.url == e.url) = true
    · rw [if_pos h, lookupEntry_cons_pos e t e.url (by simp)]; rfl
    · rw [if_neg h]
      have h2 : (y.url == e.url) = false := by simpa using h
      rw [lookupEntry_cons_neg y _ e.url h2]
      exact ih

theorem insertEntry_of_not_found (e : IndexEntry) :
    ∀ idx : List IndexEntry, lookupEntry idx e.url = none →
      insertEntry idx e = idx ++ [e] := by
  intro idx
  induction idx with
  | nil => intro _; rw [insertEntry]; rfl
  | cons y t ih =>
    intro h
    by_cases hy : (y.url == e.url) = true
    · rw [lookupEntry_cons_pos y t e.url hy] at h; simp at h
    · have hy2 : (y.url == e.url) = false := by simpa using hy
      rw [lookupEntry_cons_neg y t e.url hy2] at h
      rw [insertEntry, if_neg hy, ih h]
      rfl

/-! ## C2: no-orphan invariant -/

theorem backed_of_fields (s s2 : CrawlState) (hi : s2.index = s.index)
    (hs : s2.savedIndex = s.savedIndex) (hst : s2.storage = s.storage)
    (h : Backed s) : Backed s2 := by
  simp only [Backed] at h ⊢
  rw [hi, hs, hst]
  exact h

theorem processArticle_backed (web : Web) (catPre : String) (s : CrawlState)
    (aurl : String) (h : Backed s) :
    Backed (processArticle web catPre s aurl).1 ∧
      ∀ t ∈ (processArticle web catPre s aurl).2, Backed t := by
  by_cases hb : (lookupEntry s.index aurl).isSome = true
  · simp only [processArticle, hb, if_true]
    exact ⟨h, by simp⟩
  · have hb2 : (lookupEntry s.index aurl).isSome = false := by simpa using hb
    cases hweb : lookupDoc web aurl with
    | none =>
      simp only [processArticle, hb2, Bool.false_eq_true, if_false, hweb]
      refine ⟨backed_of_fields s _ rfl rfl rfl h, ?_⟩
      intro t ht
      simp only [List.mem_singleton] at ht
      subst ht
      exact backed_of_fields s _ rfl rfl rfl h
    | some d =>
      have hB1 : Backed { s with
          artAttempts := s.artAttempts + 1, artSuccesses := s.artSuccesses + 1 } :=
        backed_of_fields s _ rfl rfl rfl h
      have hB2 : Backed { s with
          artAttempts := s.artAttempts + 1, artSuccesses := s.artSuccesses + 1,
          storage := insertStored s.storage (urlToFilename catPre aurl)
            (extractArticle catPre d aurl) } := by
        obtain ⟨h1, h2⟩ := h
        constructor
        · intro e he
          obtain ⟨p, hp, hpe⟩ := h1 e he
          obtain ⟨q, hq, hqe⟩ := insertStored_keys_sub _ _ s.storage p hp
          exact ⟨q, hq, by rw [hqe, hpe]⟩
        · intro e he
          obtain ⟨p, hp, hpe⟩ := h2 e he
          obtain ⟨q, hq, hqe⟩ := insertStored_keys_sub _ _ s.storage p hp
          exact ⟨q, hq, by rw [hqe, hpe]⟩
      have hB3 : Backed { s with
          artAttempts := s.artAttempts + 1, artSuccesses := s.artSuccesses + 1,
          storage := insertStored s.storage (urlToFilename catPre aurl)
            (extractArticle catPre d aurl),
          index := insertEntry s.index
            (mkEntry aurl (extractArticle catPre d aurl) (urlToFilename catPre aurl)),
          newArticles := s.newArticles + 1 } := by
        obtain ⟨h1, h2⟩ := hB2
        constructor
        · intro e he
          rcases insertEntry_mem _ s.index e he with rfl | hmem
          · obtain ⟨q, hq, hqe⟩ := insertStored_self_mem
              (urlToFilename catPre aurl) (extractArticle catPre d aurl) s.storage
            exact ⟨q, hq, by rw [hqe]; rfl⟩
          · exact h1 e hmem
        · exact h2
      have hB4 : Backed { s with
          artAttempts := s.artAttempts + 1, artSuccesses := s.artSuccesses + 1,
          storage := insertStored s.storage (urlToFilename catPre aurl)
            (extractArticle catPre d aurl),
          index := insertEntry s.index
            (mkEntry aurl (extractArticle catPre d aurl) (urlToFilename catPre aurl)),
          newArticles := s.newArticles + 1,
          savedIndex := insertEntry s.index
            (mkEntry aurl (extractArticle catPre d aurl) (urlToFilename catPre aurl)),
          savedFailed := s.failed } := by
        obtain ⟨h1, _⟩ := hB3
        exact ⟨h1, h1⟩
      by_cases hmod : ((s.newArticles + 1) % 10 == 0) = true
      · simp only [processArticle, hb2, Bool.false_eq_true, if_false, hweb, hmod, if_true]
        refine ⟨hB4, ?_⟩
        intro t ht
        simp only [List.mem_cons, List.mem_singleton, List.not_mem_nil, or_false] at ht
        rcases ht with rfl | rfl | rfl | rfl
        · exact hB1
        · exact hB2
        · exact hB3
        · exact hB4
      · have hmod2 : ((s.newArticles + 1) % 10 == 0) = false := by simpa using hmod
        simp only [processArticle, hb2, Bool.false_eq_true, if_false, hweb, hmod2]
        refine ⟨hB3, ?_⟩
        intro t ht
        simp only [List.mem_cons, List.mem_singleton, List.not_mem_nil, or_false] at ht
        rcases ht with rfl | rfl | rfl
        · exact hB1
        · exact hB2
        · exact hB3

theorem processArticles_backed (web : Web) (catPre : String) :
    ∀ (links : List String) (s : CrawlState), Backed s →
      Backed (processArticles web catPre s links).1 ∧
        ∀ t ∈ (processArticles web catPre s links).2, Backed t := by
  intro links
  induction links with
  | nil => intro s h; exact ⟨h, by simp [processArticles]⟩
  | cons a rest ih =>
    intro s h
    obtain ⟨h1, h2⟩ := processArticle_backed web catPre s a h
    obtain ⟨h3, h4⟩ := ih (processArticle web catPre s a).1 h1
    rw [processArticles]
    refine ⟨h3, ?_⟩
    intro t ht
    rcases List.mem_append.mp ht with hta | htb
    · exact h2 t hta
    · exact h4 t htb

theorem stepPage_backed (web : Web) (catPre : String) (s : CrawlState) (h : Backed s) :
    Backed (stepPage web catPre s).1 ∧ ∀ t ∈ (stepPage web catPre s).2, Backed t := by
  cases hq : s.pagesToVisit with
  | nil => simp only [stepPage, hq]; exact ⟨h, by simp⟩
  | cons u rest =>
    by_cases hv : ({ s with pagesToVisit := rest } : CrawlState).visitedPages.contains u = true
    · simp only [stepPage, hq, hv, if_true]
      refine ⟨backed_of_fields s _ rfl rfl rfl h, ?_⟩
      intro t ht
      simp only [List.mem_singleton] at ht
      subst ht
      exact backed_of_fields s _ rfl rfl rfl h
    · have hv2 : ({ s with pagesToVisit := rest } : CrawlState).visitedPages.contains u = false := by
        simpa using hv
      cases hweb : lookupDoc web u with
      | none =>
        simp only [stepPage, hq, hv2, Bool.false_eq_true, if_false, hweb]
        refine ⟨backed_of_fields s _ rfl rfl rfl h, ?_⟩
        intro t ht
        simp only [List.mem_cons, List.not_mem_nil, or_false] at ht
        rcases ht with rfl | rfl
        · exact backed_of_fields s _ rfl rfl rfl h
        · exact backed_of_fields s _ rfl rfl rfl h
      | some d =>
        have hBs2 : Backed { s with
            pagesToVisit := rest, visitedPages := u :: s.visitedPages,
            encountered := s.encountered ++ d.articleLinks } :=
          backed_of_fields s _ rfl rfl rfl h
        obtain ⟨h3, h4⟩ := processArticles_backed web catPre d.articleLinks _ hBs2
        simp only [stepPage, hq, hv2, Bool.false_eq_true, if_false, hweb]
        refine ⟨backed_of_fields _ _ rfl rfl rfl h3, ?_⟩
        intro t ht
        simp only [List.mem_append, List.mem_cons, List.mem_singleton,
          List.not_mem_nil, or_false, false_or] at ht
        rcases ht with ((rfl | rfl) | hmid) | rfl
        · exact backed_of_fields s _ rfl rfl rfl h
        · exact hBs2
        · exact h4 t hmid
        · exact backed_of_fields _ _ rfl rfl rfl h3

theorem crawlLoop_backed (web : Web) (catPre : String) (maxPages : Nat) :
    ∀ (fuel : Nat) (s : CrawlState) (r : CrawlState × List CrawlState),
      crawlLoop web catPre maxPages fuel s = some r → Backed s →
      Backed r.1 ∧ ∀ t ∈ r.2, Backed t := by
  intro fuel
  induction fuel with
  | zero =>
    intro s r hr h
    rw [crawlLoop] at hr
    by_cases hg : crawlGuard maxPages s
    · rw [if_pos hg] at hr; exact absurd hr (by simp)
    · rw [if_neg hg] at hr
      simp only [Option.some.injEq] at hr
      subst hr
      exact ⟨h, by simp⟩
  | succ fuel ih =>
    intro s r hr h
    rw [crawlLoop] at hr
    by_cases hg : crawlGuard maxPages s
    · rw [if_pos hg] at hr
      obtain ⟨hs1, hs2⟩ := stepPage_backed web catPre s h
      cases hrec : crawlLoop web catPre maxPages fuel (stepPage web catPre s).1 with
      | none => rw [hrec] at hr; exact absurd hr (by simp)
      | some r2 =>
        rw [hrec] at hr
        simp only [Option.some.injEq] at hr
        subst hr
        obtain ⟨h3, h4⟩ := ih _ r2 hrec hs1
        refine ⟨h3, ?_⟩
        intro t ht
        rcases List.mem_append.mp ht with hta | htb
        · exact hs2 t hta
        · exact h4 t htb
    · rw [if_neg hg] at hr
      simp only [Option.some.injEq] at hr
      subst hr
      exact ⟨h, by simp⟩

/-- C2: from any state whose index entries are all backed by stored
article records, every state reachable in a `crawl_category` run (abrupt
stops at any intermediate point included) keeps every IndexEntry — in
memory and in every flushed index snapshot — backed by an article record
in storage with the same filename; the record is written before the entry
is appended, so only orphan records, never orphan entries, can appear. -/
theorem claim_C2_theorem (web : Web) (catPre : String) (maxPages : Nat)
    (categoryUrl : String) (prev : CrawlState) (h : Backed prev)
    (t : CrawlState) (ht : t ∈ crawlTrace web catPre maxPages categoryUrl prev) :
    Backed t := by
  have h0 : Backed (initState prev categoryUrl) :=
    backed_of_fields prev _ rfl rfl rfl h
  rw [crawlTrace] at ht
  cases hr : crawlLoop web catPre maxPages
      (fuelFor web (initState prev categoryUrl)) (initState prev categoryUrl) with
  | none =>
    rw [hr] at ht
    simp only [List.mem_singleton] at ht
    subst ht
    exact h0
  | some r =>
    rw [hr] at ht
    obtain ⟨h1, h2⟩ := crawlLoop_backed web catPre maxPages _ _ r hr h0
    rcases List.mem_cons.mp ht with rfl | htr
    · exact h0
    · exact h2 t htr

/-- Witness for C2 on the concrete two-article web, starting empty. -/
theorem claim_C2_witness :
    Backed ((crawlTrace webC9 "/ro_ar/" 5 "/ro_ar/cat" emptyState).getD 3 emptyState) :=
  claim_C2_theorem webC9 "/ro_ar/" 5 "/ro_ar/cat" emptyState
    (by constructor <;> simp [emptyState]) _ (by decide)

/-! ## C1: checkpoint bound -/

theorem unflushed_le_nine (s : CrawlState) (hb : unflushedCount s ≤ s.newArticles % 10) :
    unflushedCount s ≤ 9 := by omega

theorem storageSynced_of_fields (s s2 : CrawlState) (hst : s2.storage = s.storage)
    (hi : s2.index = s.index) (h : StorageSynced s) : StorageSynced s2 := by
  simp only [StorageSynced] at h ⊢
  rw [hst, hi]
  exact h

theorem insertStored_filter_len (fn : String) (a : Article) (p : String → Bool) :
    ∀ st : List (String × Article),
      ((insertStored st fn a).filter (fun q => p q.1)).length
        ≤ (st.filter (fun q => p q.1)).length + 1 := by
  intro st
  induction st with
  | nil =>
    rw [insertStored]
    have h1 := List.length_filter_le (fun q : String × Article => p q.1) [(fn, a)]
    simp only [List.length_cons, List.length_nil] at h1
    simpa using h1
  | cons q t ih =>
    rw [insertStored]
    by_cases h : (q.1 == fn) = true
    · rw [if_pos h]
      have hq : q.1 = fn := beq_iff_eq.mp h
      by_cases hp : p fn = true
      · have e1 : (fun q2 : String × Article => p q2.1) (fn, a) = true := hp
        have e2 : (fun q2 : String × Article => p q2.1) q = true := by
          show p q.1 = true
          rw [hq]; exact hp
        rw [List.filter_cons, List.filter_cons, if_pos e1, if_pos e2]
        simp
      · have e1 : ¬ (fun q2 : String × Article => p q2.1) (fn, a) = true := hp
        have e2 : ¬ (fun q2 : String × Article => p q2.1) q = true := by
          show ¬ p q.1 = true
          rw [hq]; exact hp
        rw [List.filter_cons, List.filter_cons, if_neg e1, if_neg e2]
        simp
    · rw [if_neg h]
      by_cases hp : p q.1 = true
      · have e1 : (fun q2 : String × Article => p q2.1) q = true := hp
        rw [List.filter_cons, List.filter_cons, if_pos e1, if_pos e1]
        simp only [List.length_cons]
        have h2 := ih
        omega
      · have e1 : ¬ (fun q2 : String × Article => p q2.1) q = true := hp
        rw [List.filter_cons, List.filter_cons, if_neg e1, if_neg e1]
        exact ih

theorem unflushed_zero_of_synced (s : CrawlState) (hsync : StorageSynced s)
    (hsv : s.savedIndex = s.index) : unflushedCount s = 0 := by
  rw [unflushedCount, List.length_eq_zero, List.filter_eq_nil_iff]
  intro p hp
  obtain ⟨e, he, hef⟩ := hsync p hp
  have hmem : p.1 ∈ savedFilenames s := by
    rw [savedFilenames, hsv]
    exact List.mem_map.mpr ⟨e, he, hef⟩
  have hc : (savedFilenames s).contains p.1 = true := List.elem_iff.mpr hmem
  intro hcon
  rw [hc] at hcon
  simp at hcon

theorem processArticle_c1 (web : Web) (catPre : String) (s : CrawlState) (aurl : String)
    (hsync : StorageSynced s) (hb : unflushedCount s ≤ s.newArticles % 10) :
    (StorageSynced (processArticle web catPre s aurl).1 ∧
      unflushedCount (processArticle web catPre s aurl).1
        ≤ (processArticle web catPre s aurl).1.newArticles % 10) ∧
    ∀ t ∈ (processArticle web catPre s aurl).2, unflushedCount t ≤ 10 := by
  have hU9 : unflushedCount s ≤ 9 := by omega
  by_cases hl : (lookupEntry s.index aurl).isSome = true
  · simp only [processArticle, hl, if_true]
    exact ⟨⟨hsync, hb⟩, by simp⟩
  · have hl2 : (lookupEntry s.index aurl).isSome = false := by simpa using hl
    have hnone : lookupEntry s.index aurl = none := by
      cases h2 : lookupEntry s.index aurl with
      | none => rfl
      | some v => rw [h2] at hl2; simp at hl2
    cases hweb : lookupDoc web aurl with
    | none =>
      simp only [processArticle, hl2, Bool.false_eq_true, if_false, hweb]
      refine ⟨⟨storageSynced_of_fields s _ rfl rfl hsync, hb⟩, ?_⟩
      intro t ht
      simp only [List.mem_singleton] at ht
      subst ht
      exact le_trans hb (by omega)
    | some d =>
      have hU2 : unflushedCount { s with
          artAttempts := s.artAttempts + 1, artSuccesses := s.artSuccesses + 1,
          storage := insertStored s.storage (urlToFilename catPre aurl)
            (extractArticle catPre d aurl) } ≤ unflushedCount s + 1 :=
        insertStored_filter_len (urlToFilename catPre aurl)
          (extractArticle catPre d aurl)
          (fun key => !(savedFilenames s).contains key) s.storage
      have hSy3 : StorageSynced { s with
          artAttempts := s.artAttempts + 1, artSuccesses := s.artSuccesses + 1,
          storage := insertStored s.storage (urlToFilename catPre aurl)
            (extractArticle catPre d aurl),
          index := insertEntry s.index
            (mkEntry aurl (extractArticle catPre d aurl) (urlToFilename catPre aurl)),
          newArticles := s.newArticles + 1 } := by
        intro p hp
        rcases insertStored_mem _ _ s.storage p hp with h1 | h2
        · refine ⟨mkEntry aurl (extractArticle catPre d aurl) (urlToFilename catPre aurl),
            insertEntry_self_mem _ s.index, ?_⟩
          rw [h1]
          rfl
        · obtain ⟨e, he, hef⟩ := hsync p h2
          rw [insertEntry_of_not_found _ s.index hnone]
          exact ⟨e, List.mem_append.mpr (Or.inl he), hef⟩
      by_cases hmod : ((s.newArticles + 1) % 10 == 0) = true
      · simp only [processArticle, hl2, Bool.false_eq_true, if_false, hweb, hmod, if_true]
        have hU4 : unflushedCount { s with
            artAttempts := s.artAttempts + 1, artSuccesses := s.artSuccesses + 1,
            storage := insertStored s.storage (urlToFilename catPre aurl)
              (extractArticle catPre d aurl),
            index := insertEntry s.index
              (mkEntry aurl (extractArticle catPre d aurl) (urlToFilename catPre aurl)),
            newArticles := s.newArticles + 1,
            savedIndex := insertEntry s.index
              (mkEntry aurl (extractArticle catPre d aurl) (urlToFilename catPre aurl)),
            savedFailed := s.failed } = 0 := by
          apply unflushed_zero_of_synced
          · exact storageSynced_of_fields _ _ rfl rfl hSy3
          · rfl
        refine ⟨⟨storageSynced_of_fields _ _ rfl rfl hSy3,
          le_trans (le_of_eq hU4) (Nat.zero_le _)⟩, ?_⟩
        intro t ht
        simp only [List.mem_cons, List.mem_singleton, List.not_mem_nil, or_false] at ht
        rcases ht with rfl | rfl | rfl | rfl
        · exact le_trans hU9 (by omega)
        · exact le_trans hU2 (by omega)
        · exact le_trans hU2 (by omega)
        · exact le_trans (le_of_eq hU4) (by omega)
      · have hmod2 : ((s.newArticles + 1) % 10 == 0) = false := by simpa using hmod
        have hne : (s.newArticles + 1) % 10 ≠ 0 := by simpa using hmod2
        simp only [processArticle, hl2, Bool.false_eq_true, if_false, hweb, hmod2]
        refine ⟨⟨hSy3, le_trans hU2 (by omega)⟩, ?_⟩
        intro t ht
        simp only [List.mem_cons, List.mem_singleton, List.not_mem_nil, or_false] at ht
        rcases ht with rfl | rfl | rfl
        · exact le_trans hU9 (by omega)
        · exact le_trans hU2 (by omega)
        · exact le_trans hU2 (by omega)

theorem processArticles_c1 (web : Web) (catPre : String) :
    ∀ (links : List String) (s : CrawlState),
      StorageSynced s → unflushedCount s ≤ s.newArticles % 10 →
      (StorageSynced (processArticles web catPre s links).1 ∧
        unflushedCount (processArticles web catPre s links).1
          ≤ (processArticles web catPre s links).1.newArticles % 10) ∧
      ∀ t ∈ (processArticles web catPre s links).2, unflushedCount t ≤ 10 := by
  intro links
  induction links with
  | nil => intro s h1 h2; exact ⟨⟨h1, h2⟩, by simp [processArticles]⟩
  | cons a rest ih =>
    intro s h1 h2
    obtain ⟨⟨h3, h4⟩, h5⟩ := processArticle_c1 web catPre s a h1 h2
    obtain ⟨h6, h7⟩ := ih (processArticle web catPre s a).1 h3 h4
    rw [processArticles]
    refine ⟨h6, ?_⟩
    intro t ht
    rcases List.mem_append.mp ht with hta | htb
    · exact h5 t hta
    · exact h7 t htb

theorem stepPage_c1 (web : Web) (catPre : String) (s : CrawlState)
    (hsync : StorageSynced s) (hb : unflushedCount s ≤ s.newArticles % 10) :
    (StorageSynced (stepPage web catPre s).1 ∧
      unflushedCount (stepPage web catPre s).1
        ≤ (stepPage web catPre s).1.newArticles % 10) ∧
    ∀ t ∈ (stepPage web catPre s).2, unflushedCount t ≤ 10 := by
  have hU9 : unflushedCount s ≤ 9 := by omega
  cases hq : s.pagesToVisit with
  | nil => simp only [stepPage, hq]; exact ⟨⟨hsync, hb⟩, by simp⟩
  | cons u rest =>
    by_cases hv : ({ s with pagesToVisit := rest } : CrawlState).visitedPages.contains u = true
    · simp only [stepPage, hq, hv, if_true]
      refine ⟨⟨storageSynced_of_fields s _ rfl rfl hsync, hb⟩, ?_⟩
      intro t ht
      simp only [List.mem_singleton] at ht
      subst ht
      exact le_trans hb (by omega)
    · have hv2 : ({ s with pagesToVisit := rest } : CrawlState).visitedPages.contains u
          = false := by simpa using hv
      cases hweb : lookupDoc web u with
      | none =>
        simp only [stepPage, hq, hv2, Bool.false_eq_true, if_false, hweb]
        refine ⟨⟨storageSynced_of_fields s _ rfl rfl hsync, hb⟩, ?_⟩
        intro t ht
        simp only [List.mem_cons, List.not_mem_nil, or_false] at ht
        rcases ht with rfl | rfl
        · exact le_trans hb (by omega)
        · exact le_trans hb (by omega)
      | some d =>
        have hsync2 : StorageSynced { s with
            pagesToVisit := rest, visitedPages := u :: s.visitedPages,
            encountered := s.encountered ++ d.articleLinks } :=
          storageSynced_of_fields s _ rfl rfl hsync
        have hb2 : unflushedCount { s with
            pagesToVisit := rest, visitedPages := u :: s.visitedPages,
            encountered := s.encountered ++ d.articleLinks }
            ≤ ({ s with
            pagesToVisit := rest, visitedPages := u :: s.visitedPages,
            encountered := s.encountered ++ d.articleLinks } : CrawlState).newArticles
              % 10 := hb
        obtain ⟨⟨h3, h4⟩, h5⟩ := processArticles_c1 web catPre d.articleLinks _ hsync2 hb2
        simp only [stepPage, hq, hv2, Bool.false_eq_true, if_false, hweb]
        refine ⟨⟨storageSynced_of_fields _ _ rfl rfl h3, h4⟩, ?_⟩
        intro t ht
        simp only [List.mem_append, List.mem_cons, List.mem_singleton,
          List.not_mem_nil, or_false, false_or] at ht
        rcases ht with ((rfl | rfl) | hmid) | rfl
        · exact le_trans hb (by omega)
        · exact le_trans hb (by omega)
        · exact h5 t hmid
        · exact le_trans h4 (by omega)

theorem crawlLoop_c1 (web : Web) (catPre : String) (maxPages : Nat) :
    ∀ (fuel : Nat) (s : CrawlState) (r : CrawlState × List CrawlState),
      crawlLoop web catPre maxPages fuel s = some r →
      StorageSynced s → unflushedCount s ≤ s.newArticles % 10 →
      ∀ t ∈ r.2, unflushedCount t ≤ 10 := by
  intro fuel
  induction fuel with
  | zero =>
    intro s r hr h1 h2
    rw [crawlLoop] at hr
    by_cases hg : crawlGuard maxPages s
    · rw [if_pos hg] at hr; exact absurd hr (by simp)
    · rw [if_neg hg] at hr
      simp only [Option.some.injEq] at hr
      subst hr
      simp
  | succ fuel ih =>
    intro s r hr h1 h2
    rw [crawlLoop] at hr
    by_cases hg : crawlGuard maxPages s
    · rw [if_pos hg] at hr
      obtain ⟨⟨h3, h4⟩, h5⟩ := stepPage_c1 web catPre s h1 h2
      cases hrec : crawlLoop web catPre maxPages fuel (stepPage web catPre s).1 with
      | none => rw [hrec] at hr; exact absurd hr (by simp)
      | some r2 =>
        rw [hrec] at hr
        simp only [Option.some.injEq] at hr
        subst hr
        intro t ht
        rcases List.mem_append.mp ht with hta | htb
        · exact h5 t hta
        · exact ih _ r2 hrec h3 h4 t htb
    · rw [if_neg hg] at hr
      simp only [Option.some.injEq] at hr
      subst hr
      simp

/-- C1 counterexample: on a web whose category page links ten fresh
articles, the state reached right after the tenth article record is
written — and before the index flush that same iteration performs — has
ten persisted-but-unflushed records, refuting the claimed bound of 9. -/
theorem claim_C1_counterexample :
    ¬ (∀ t ∈ traceC1, unflushedCount t ≤ 9) := by
  decide

/-- C1 (amended): starting `crawl_category` from a state whose storage is
fully covered by the flushed index (as after any category-end flush), at
every intermediate point of the run — abrupt stops anywhere included —
the number of Article records persisted to storage whose IndexEntry has
not yet been flushed to the durable index file is at most 10: at most 9
between article-processing steps, plus the one record the current
iteration writes before its entry reaches the flushed index. -/
theorem claim_C1_theorem (web : Web) (catPre : String) (maxPages : Nat)
    (categoryUrl : String) (prev : CrawlState)
    (hsync : StorageSynced (initState prev categoryUrl))
    (h0 : unflushedCount (initState prev categoryUrl) = 0)
    (t : CrawlState) (ht : t ∈ crawlTrace web catPre maxPages categoryUrl prev) :
    unflushedCount t ≤ 10 := by
  rw [crawlTrace] at ht
  cases hr : crawlLoop web catPre maxPages
      (fuelFor web (initState prev categoryUrl)) (initState prev categoryUrl) with
  | none =>
    rw [hr] at ht
    simp only [List.mem_singleton] at ht
    subst ht
    omega
  | some r =>
    rw [hr] at ht
    rcases List.mem_cons.mp ht with rfl | htr
    · omega
    · exact crawlLoop_c1 web catPre maxPages _ _ r hr hsync (by omega) t htr

/-- Witness for C1 on the ten-article fixture from an empty store. -/
theorem claim_C1_witness :
    unflushedCount ((crawlTrace webC1 "/x/" 5 "/x/c" emptyState).getD 31 emptyState)
      ≤ 10 :=
  claim_C1_theorem webC1 "/x/" 5 "/x/c" emptyState
    (by intro p hp; simp [initState, emptyState] at hp) (by rfl) _ (by decide)

/-! ## C6: traversal termination -/

theorem processArticle_keeps (web : Web) (catPre : String) (s : CrawlState) (aurl : String) :
    (processArticle web catPre s aurl).1.pagesToVisit = s.pagesToVisit ∧
    (processArticle web catPre s aurl).1.visitedPages = s.visitedPages ∧
    (processArticle web catPre s aurl).1.encountered = s.encountered := by
  by_cases hl : (lookupEntry s.index aurl).isSome = true
  · simp only [processArticle, hl, if_true]
    exact ⟨by simp, by simp, by simp⟩
  · have hl2 : (lookupEntry s.index aurl).isSome = false := by simpa using hl
    cases hweb : lookupDoc web aurl with
    | none =>
      simp only [processArticle, hl2, Bool.false_eq_true, if_false, hweb]
      exact ⟨by simp, by simp, by simp⟩
    | some d =>
      by_cases hmod : ((s.newArticles + 1) % 10 == 0) = true
      · simp only [processArticle, hl2, Bool.false_eq_true, if_false, hweb, hmod, if_true]
        exact ⟨by simp, by simp, by simp⟩
      · have hmod2 : ((s.newArticles + 1) % 10 == 0) = false := by simpa using hmod
        simp only [processArticle, hl2, Bool.false_eq_true, if_false, hweb, hmod2]
        exact ⟨by simp, by simp, by simp⟩

theorem processArticles_keeps (web : Web) (catPre : String) :
    ∀ (links : List String) (s : CrawlState),
      (processArticles web catPre s links).1.pagesToVisit = s.pagesToVisit ∧
      (processArticles web catPre s links).1.visitedPages = s.visitedPages ∧
      (processArticles web catPre s links).1.encountered = s.encountered := by
  intro links
  induction links with
  | nil => intro s; rw [processArticles]; exact ⟨rfl, rfl, rfl⟩
  | cons a rest ih =>
    intro s
    rw [processArticles]
    obtain ⟨h1, h2, h3⟩ := processArticle_keeps web catPre s a
    obtain ⟨h4, h5, h6⟩ := ih (processArticle web catPre s a).1
    exact ⟨h4.trans h1, h5.trans h2, h6.trans h3⟩

theorem webWeight_cons_le (web : Web) (u : String) (visited : List String) :
    webWeight web (u :: visited) ≤ webWeight web visited := by
  induction web with
  | nil => simp [webWeight]
  | cons p t ih =>
    rw [webWeight, webWeight, List.filter_cons, List.filter_cons]
    by_cases hv : visited.contains p.1 = true
    · have hu : (u :: visited).contains p.1 = true := by
        rw [List.contains_cons, hv]
        simp
      simp only [hu, hv, Bool.not_true, Bool.false_eq_true, if_false]
      exact ih
    · have hv2 : visited.contains p.1 = false := by simpa using hv
      by_cases hpu : (p.1 == u) = true
      · have hu : (u :: visited).contains p.1 = true := by
          rw [List.contains_cons, hv2]
          simp [beq_iff_eq.mp hpu]
        simp only [hu, hv2, Bool.not_true, Bool.not_false, Bool.false_eq_true, if_false,
          if_true, List.map_cons, List.sum_cons]
        have ih2 := ih
        rw [webWeight, webWeight] at ih2
        omega
      · have hpu2 : (p.1 == u) = false := by simpa using hpu
        have hu : (u :: visited).contains p.1 = false := by
          rw [List.contains_cons, hv2]
          simp [hpu2]
        simp only [hu, hv2, Bool.not_false, if_true, List.map_cons, List.sum_cons]
        have ih2 := ih
        rw [webWeight, webWeight] at ih2
        omega

theorem webWeight_remove (u : String) (d : Doc) :
    ∀ (web : Web) (visited : List String), lookupDoc web u = some d →
      visited.contains u = false →
      webWeight web (u :: visited) + (1 + d.pageLinks.length) ≤ webWeight web visited := by
  intro web
  induction web with
  | nil => intro visited hu _; simp [lookupDoc] at hu
  | cons p t ih =>
    intro visited hu hnv
    by_cases hp : (p.1 == u) = true
    · have hd : p.2 = d := by
        rw [lookupDoc, List.find?_cons_of_pos t hp] at hu
        simpa using hu
      have hpu : p.1 = u := beq_iff_eq.mp hp
      have hkeep : visited.contains p.1 = false := by rw [hpu]; exact hnv
      have hskip : (u :: visited).contains p.1 = true := by
        rw [List.contains_cons, hpu]
        simp
      rw [webWeight, webWeight, List.filter_cons, List.filter_cons]
      simp only [hskip, hkeep, Bool.not_true, Bool.not_false, Bool.false_eq_true,
        if_false, if_true, List.map_cons, List.sum_cons]
      have h1 := webWeight_cons_le t u visited
      rw [webWeight, webWeight] at h1
      rw [docWeight, hd]
      omega
    · have hp2 : (p.1 == u) = false := by simpa using hp
      have hu2 : lookupDoc t u = some d := by
        rw [lookupDoc, List.find?_cons_of_neg t (by simp [hp2])] at hu
        exact hu
      have hcc : (u :: visited).contains p.1 = visited.contains p.1 := by
        rw [List.contains_cons]
        have : (p.1 == u) = false := hp2
        simp [this]
      have hrec := ih visited hu2 hnv
      rw [webWeight, webWeight, List.filter_cons, List.filter_cons, hcc]
      by_cases hv : visited.contains p.1 = true
      · simp only [hv, Bool.not_true, Bool.false_eq_true, if_false]
        rw [webWeight, webWeight] at hrec
        exact hrec
      · have hv2 : visited.contains p.1 = false := by simpa using hv
        simp only [hv2, Bool.not_false, if_true, List.map_cons, List.sum_cons]
        rw [webWeight, webWeight] at hrec
        omega

theorem stepPage_measure (web : Web) (catPre : String) (maxPages : Nat) (s : CrawlState)
    (hg : crawlGuard maxPages s) :
    fuelFor web (stepPage web catPre s).1 < fuelFor web s := by
  obtain ⟨hqne, _⟩ := hg
  cases hq : s.pagesToVisit with
  | nil => exact absurd hq hqne
  | cons u rest =>
    have hfs : fuelFor web s = rest.length + 1 + webWeight web s.visitedPages := by
      rw [fuelFor, hq]
      simp [Nat.add_comm]
    by_cases hv : ({ s with pagesToVisit := rest } : CrawlState).visitedPages.contains u = true
    · simp only [stepPage, hq, hv, if_true]
      rw [fuelFor, hfs]
      simp
    · have hv2 : ({ s with pagesToVisit := rest } : CrawlState).visitedPages.contains u
          = false := by simpa using hv
      cases hweb : lookupDoc web u with
      | none =>
        simp only [stepPage, hq, hv2, Bool.false_eq_true, if_false, hweb]
        rw [fuelFor, hfs]
        have := webWeight_cons_le web u s.visitedPages
        simp only []
        omega
      | some d =>
        simp only [stepPage, hq, hv2, Bool.false_eq_true, if_false, hweb]
        rw [fuelFor, hfs]
        obtain ⟨hk1, hk2, _⟩ := processArticles_keeps web catPre d.articleLinks
          { s with
            pagesToVisit := rest, visitedPages := u :: s.visitedPages,
            encountered := s.encountered ++ d.articleLinks }
        rw [hk1, hk2]
        simp only [List.length_append]
        have hrem := webWeight_remove u d web s.visitedPages hweb (by simpa using hv2)
        have hfl := List.length_filter_le
          (fun l => !((u :: s.visitedPages).contains l)) d.pageLinks
        omega

theorem crawlLoop_total (web : Web) (catPre : String) (maxPages : Nat) :
    ∀ (fuel : Nat) (s : CrawlState), fuelFor web s ≤ fuel →
      (crawlLoop web catPre maxPages fuel s).isSome = true := by
  intro fuel
  induction fuel with
  | zero =>
    intro s hf
    rw [crawlLoop]
    by_cases hg : crawlGuard maxPages s
    · exfalso
      obtain ⟨hqne, _⟩ := hg
      cases hq : s.pagesToVisit with
      | nil => exact hqne hq
      | cons u rest =>
        rw [fuelFor, hq] at hf
        simp at hf
    · rw [if_neg hg]; rfl
  | succ fuel ih =>
    intro s hf
    rw [crawlLoop]
    by_cases hg : crawlGuard maxPages s
    · rw [if_pos hg]
      have hm := stepPage_measure web catPre maxPages s hg
      have hrec := ih (stepPage web catPre s).1 (by omega)
      cases hr : crawlLoop web catPre maxPages fuel (stepPage web catPre s).1 with
      | none => rw [hr] at hrec; simp at hrec
      | some r2 => simp [hr]
    · rw [if_neg hg]; rfl

theorem crawlLoop_stops (web : Web) (catPre : String) (maxPages : Nat) :
    ∀ (fuel : Nat) (s : CrawlState) (r : CrawlState × List CrawlState),
      crawlLoop web catPre maxPages fuel s = some r → ¬ crawlGuard maxPages r.1 := by
  intro fuel
  induction fuel with
  | zero =>
    intro s r hr
    rw [crawlLoop] at hr
    by_cases hg : crawlGuard maxPages s
    · rw [if_pos hg] at hr; exact absurd hr (by simp)
    · rw [if_neg hg] at hr
      simp only [Option.some.injEq] at hr
      subst hr
      exact hg
  | succ fuel ih =>
    intro s r hr
    rw [crawlLoop] at hr
    by_cases hg : crawlGuard maxPages s
    · rw [if_pos hg] at hr
      cases hrec : crawlLoop web catPre maxPages fuel (stepPage web catPre s).1 with
      | none => rw [hrec] at hr; exact absurd hr (by simp)
      | some r2 =>
        rw [hrec] at hr
        simp only [Option.some.injEq] at hr
        subst hr
        exact ih _ r2 hrec
    · rw [if_neg hg] at hr
      simp only [Option.some.injEq] at hr
      subst hr
      exact hg

theorem stepPage_visited_cases (web : Web) (catPre : String) (s : CrawlState) :
    (stepPage web catPre s).1.visitedPages = s.visitedPages ∨
    ∃ u, (stepPage web catPre s).1.visitedPages = u :: s.visitedPages ∧
      s.visitedPages.contains u = false := by
  cases hq : s.pagesToVisit with
  | nil => simp only [stepPage, hq]; exact Or.inl (by simp)
  | cons u rest =>
    by_cases hv : ({ s with pagesToVisit := rest } : CrawlState).visitedPages.contains u = true
    · simp only [stepPage, hq, hv, if_true]
      exact Or.inl (by simp)
    · have hv2 : ({ s with pagesToVisit := rest } : CrawlState).visitedPages.contains u
          = false := by simpa using hv
      cases hweb : lookupDoc web u with
      | none =>
        simp only [stepPage, hq, hv2, Bool.false_eq_true, if_false, hweb]
        exact Or.inr ⟨u, rfl, hv2⟩
      | some d =>
        simp only [stepPage, hq, hv2, Bool.false_eq_true, if_false, hweb]
        obtain ⟨_, hk2, _⟩ := processArticles_keeps web catPre d.articleLinks
          { s with
            pagesToVisit := rest, visitedPages := u :: s.visitedPages,
            encountered := s.encountered ++ d.articleLinks }
        exact Or.inr ⟨u, hk2, hv2⟩

theorem crawlLoop_visited (web : Web) (catPre : String) (maxPages : Nat) :
    ∀ (fuel : Nat) (s : CrawlState) (r : CrawlState × List CrawlState),
      crawlLoop web catPre maxPages fuel s = some r →
      s.visitedPages.length ≤ maxPages → s.visitedPages.Nodup →
      r.1.visitedPages.length ≤ maxPages ∧ r.1.visitedPages.Nodup := by
  intro fuel
  induction fuel with
  | zero =>
    intro s r hr hlen hnd
    rw [crawlLoop] at hr
    by_cases hg : crawlGuard maxPages s
    · rw [if_pos hg] at hr; exact absurd hr (by simp)
    · rw [if_neg hg] at hr
      simp only [Option.some.injEq] at hr
      subst hr
      exact ⟨hlen, hnd⟩
  | succ fuel ih =>
    intro s r hr hlen hnd
    rw [crawlLoop] at hr
    by_cases hg : crawlGuard maxPages s
    · rw [if_pos hg] at hr
      have hnext : (stepPage web catPre s).1.visitedPages.length ≤ maxPages ∧
          (stepPage web catPre s).1.visitedPages.Nodup := by
        rcases stepPage_visited_cases web catPre s with h1 | ⟨u, h2, h3⟩
        · rw [h1]; exact ⟨hlen, hnd⟩
        · rw [h2]
          constructor
          · have := hg.2
            simp only [List.length_cons]
            omega
          · refine List.Nodup.cons ?_ hnd
            intro hmem
            have hc : s.visitedPages.contains u = true := List.elem_iff.mpr hmem
            rw [h3] at hc
            simp at hc
      cases hrec : crawlLoop web catPre maxPages fuel (stepPage web catPre s).1 with
      | none => rw [hrec] at hr; exact absurd hr (by simp)
      | some r2 =>
        rw [hrec] at hr
        simp only [Option.some.injEq] at hr
        subst hr
        exact ih _ r2 hrec hnext.1 hnext.2
    · rw [if_neg hg] at hr
      simp only [Option.some.injEq] at hr
      subst hr
      exact ⟨hlen, hnd⟩

/-- C6: for every finite link graph and every ceiling `max_pages`,
`crawl_category` terminates, stopping exactly at the first state where the
pending-page queue is empty or the number of distinct visited pages has
reached `max_pages`; the visited set never exceeds the ceiling and never
revisits a page. -/
theorem claim_C6_theorem (web : Web) (catPre : String) (maxPages : Nat)
    (categoryUrl : String) (prev : CrawlState) :
    ∃ r, crawlCategory web catPre maxPages categoryUrl prev = some r ∧
      (r.1.pagesToVisit = [] ∨ r.1.visitedPages.length = maxPages) ∧
      r.1.visitedPages.length ≤ maxPages ∧ r.1.visitedPages.Nodup := by
  have htot := crawlLoop_total web catPre maxPages
    (fuelFor web (initState prev categoryUrl)) (initState prev categoryUrl) (le_refl _)
  cases hr : crawlLoop web catPre maxPages
      (fuelFor web (initState prev categoryUrl)) (initState prev categoryUrl) with
  | none => rw [hr] at htot; simp at htot
  | some r =>
    have hstop := crawlLoop_stops web catPre maxPages _ _ r hr
    have hvis := crawlLoop_visited web catPre maxPages _ _ r hr
      (by simp [initState]) (by simp [initState])
    refine ⟨r, ?_, ?_, hvis⟩
    · rw [crawlCategory]
      exact hr
    · rw [crawlGuard] at hstop
      by_cases hq : r.1.pagesToVisit = []
      · exact Or.inl hq
      · right
        have hlen : ¬ r.1.visitedPages.length < maxPages := fun hlt => hstop ⟨hq, hlt⟩
        omega

/-! ## C4: idempotence of re-crawling -/

theorem stepPage_proj (web : Web) (catPre : String) (s s2 : CrawlState)
    (hq : s.pagesToVisit = s2.pagesToVisit) (hv : s.visitedPages = s2.visitedPages)
    (he : s.encountered = s2.encountered) :
    (stepPage web catPre s).1.pagesToVisit = (stepPage web catPre s2).1.pagesToVisit ∧
    (stepPage web catPre s).1.visitedPages = (stepPage web catPre s2).1.visitedPages ∧
    (stepPage web catPre s).1.encountered = (stepPage web catPre s2).1.encountered := by
  cases hq1 : s.pagesToVisit with
  | nil =>
    have hq2 : s2.pagesToVisit = [] := by rw [← hq, hq1]
    simp only [stepPage, hq1, hq2]
    refine ⟨?_, ?_, ?_⟩ <;> simp [hq, hv, he]
  | cons u rest =>
    have hq2 : s2.pagesToVisit = u :: rest := by rw [← hq, hq1]
    by_cases hvc : ({ s with pagesToVisit := rest } : CrawlState).visitedPages.contains u = true
    · have hvc2 : ({ s2 with pagesToVisit := rest } : CrawlState).visitedPages.contains u
          = true := by
        show s2.visitedPages.contains u = true
        rw [← hv]
        exact hvc
      simp only [stepPage, hq1, hq2, hvc, hvc2, if_true]
      refine ⟨?_, ?_, ?_⟩ <;> simp [hv, he]
    · have hvcf : ({ s with pagesToVisit := rest } : CrawlState).visitedPages.contains u
          = false := by simpa using hvc
      have hvcf2 : ({ s2 with pagesToVisit := rest } : CrawlState).visitedPages.contains u
          = false := by
        show s2.visitedPages.contains u = false
        rw [← hv]
        exact hvcf
      cases hweb : lookupDoc web u with
      | none =>
        simp only [stepPage, hq1, hq2, hvcf, hvcf2, Bool.false_eq_true, if_false, hweb]
        refine ⟨?_, ?_, ?_⟩ <;> simp [hv, he]
      | some d =>
        simp only [stepPage, hq1, hq2, hvcf, hvcf2, Bool.false_eq_true, if_false, hweb]
        obtain ⟨ha1, ha2, ha3⟩ := processArticles_keeps web catPre d.articleLinks
          { s with
            pagesToVisit := rest, visitedPages := u :: s.visitedPages,
            encountered := s.encountered ++ d.articleLinks }
        obtain ⟨hb1, hb2, hb3⟩ := processArticles_keeps web catPre d.articleLinks
          { s2 with
            pagesToVisit := rest, visitedPages := u :: s2.visitedPages,
            encountered := s2.encountered ++ d.articleLinks }
        refine ⟨?_, ?_, ?_⟩
        · rw [ha1, ha2, hb1, hb2]
          simp only []
          rw [hv]
        · rw [ha2, hb2]
          simp only []
          rw [hv]
        · rw [ha3, hb3]
          simp only []
          rw [he]

theorem crawlGuard_proj (maxPages : Nat) (s s2 : CrawlState)
    (hq : s.pagesToVisit = s2.pagesToVisit) (hv : s.visitedPages = s2.visitedPages) :
    crawlGuard maxPages s ↔ crawlGuard maxPages s2 := by
  rw [crawlGuard, crawlGuard, hq, hv]

theorem crawlLoop_proj (web : Web) (catPre : String) (maxPages : Nat) :
    ∀ (fuel : Nat) (s s2 : CrawlState) (r r2 : CrawlState × List CrawlState),
      s.pagesToVisit = s2.pagesToVisit → s.visitedPages = s2.visitedPages →
      s.encountered = s2.encountered →
      crawlLoop web catPre maxPages fuel s = some r →
      crawlLoop web catPre maxPages fuel s2 = some r2 →
      r.1.encountered = r2.1.encountered := by
  intro fuel
  induction fuel with
  | zero =>
    intro s s2 r r2 hq hv he h1 h2
    rw [crawlLoop] at h1 h2
    by_cases hg : crawlGuard maxPages s
    · rw [if_pos hg] at h1; exact absurd h1 (by simp)
    · have hg2 : ¬ crawlGuard maxPages s2 := fun hgg =>
        hg ((crawlGuard_proj maxPages s s2 hq hv).mpr hgg)
      rw [if_neg hg] at h1
      rw [if_neg hg2] at h2
      simp only [Option.some.injEq] at h1 h2
      subst h1
      subst h2
      exact he
  | succ fuel ih =>
    intro s s2 r r2 hq hv he h1 h2
    rw [crawlLoop] at h1 h2
    by_cases hg : crawlGuard maxPages s
    · have hg2 : crawlGuard maxPages s2 := (crawlGuard_proj maxPages s s2 hq hv).mp hg
      rw [if_pos hg] at h1
      rw [if_pos hg2] at h2
      obtain ⟨hp1, hp2, hp3⟩ := stepPage_proj web catPre s s2 hq hv he
      cases hr1 : crawlLoop web catPre maxPages fuel (stepPage web catPre s).1 with
      | none => rw [hr1] at h1; exact absurd h1 (by simp)
      | some q1 =>
        cases hr2 : crawlLoop web catPre maxPages fuel (stepPage web catPre s2).1 with
        | none => rw [hr2] at h2; exact absurd h2 (by simp)
        | some q2 =>
          rw [hr1] at h1
          rw [hr2] at h2
          simp only [Option.some.injEq] at h1 h2
          subst h1
          subst h2
          exact ih _ _ q1 q2 hp1 hp2 hp3 hr1 hr2
    · have hg2 : ¬ crawlGuard maxPages s2 := fun hgg =>
        hg ((crawlGuard_proj maxPages s s2 hq hv).mpr hgg)
      rw [if_neg hg] at h1
      rw [if_neg hg2] at h2
      simp only [Option.some.injEq] at h1 h2
      subst h1
      subst h2
      exact he

theorem stepPage_enc_mono (web : Web) (catPre : String) (s : CrawlState) :
    ∀ a ∈ s.encountered, a ∈ (stepPage web catPre s).1.encountered := by
  intro a ha
  cases hq : s.pagesToVisit with
  | nil => simp only [stepPage, hq]; exact ha
  | cons u rest =>
    by_cases hvc : ({ s with pagesToVisit := rest } : CrawlState).visitedPages.contains u = true
    · simp only [stepPage, hq, hvc, if_true]; exact ha
    · have hvcf : ({ s with pagesToVisit := rest } : CrawlState).visitedPages.contains u
          = false := by simpa using hvc
      cases hweb : lookupDoc web u with
      | none => simp only [stepPage, hq, hvcf, Bool.false_eq_true, if_false, hweb]; exact ha
      | some d =>
        simp only [stepPage, hq, hvcf, Bool.false_eq_true, if_false, hweb]
        obtain ⟨_, _, ha3⟩ := processArticles_keeps web catPre d.articleLinks
          { s with
            pagesToVisit := rest, visitedPages := u :: s.visitedPages,
            encountered := s.encountered ++ d.articleLinks }
        show a ∈ (processArticles web catPre _ d.articleLinks).1.encountered
        rw [ha3]
        exact List.mem_append.mpr (Or.inl ha)

theorem crawlLoop_enc_mono (web : Web) (catPre : String) (maxPages : Nat) :
    ∀ (fuel : Nat) (s : CrawlState) (r : CrawlState × List CrawlState),
      crawlLoop web catPre maxPages fuel s = some r →
      ∀ a ∈ s.encountered, a ∈ r.1.encountered := by
  intro fuel
  induction fuel with
  | zero =>
    intro s r hr a ha
    rw [crawlLoop] at hr
    by_cases hg : crawlGuard maxPages s
    · rw [if_pos hg] at hr; exact absurd hr (by simp)
    · rw [if_neg hg] at hr
      simp only [Option.some.injEq] at hr
      subst hr
      exact ha
  | succ fuel ih =>
    intro s r hr a ha
    rw [crawlLoop] at hr
    by_cases hg : crawlGuard maxPages s
    · rw [if_pos hg] at hr
      cases hrec : crawlLoop web catPre maxPages fuel (stepPage web catPre s).1 with
      | none => rw [hrec] at hr; exact absurd hr (by simp)
      | some r2 =>
        rw [hrec] at hr
        simp only [Option.some.injEq] at hr
        subst hr
        exact ih _ r2 hrec a (stepPage_enc_mono web catPre s a ha)
    · rw [if_neg hg] at hr
      simp only [Option.some.injEq] at hr
      subst hr
      exact ha

theorem processArticle_indexes (web : Web) (catPre : String) (s : CrawlState)
    (aurl : String) (hweb : (lookupDoc web aurl).isSome = true) :
    (lookupEntry (processArticle web catPre s aurl).1.index aurl).isSome = true := by
  by_cases hl : (lookupEntry s.index aurl).isSome = true
  · simp only [processArticle, hl, if_true]
  · have hl2 : (lookupEntry s.index aurl).isSome = false := by simpa using hl
    cases hweb2 : lookupDoc web aurl with
    | none => rw [hweb2] at hweb; simp at hweb
    | some d =>
      by_cases hmod : ((s.newArticles + 1) % 10 == 0) = true
      · simp only [processArticle, hl2, Bool.false_eq_true, if_false, hweb2, hmod, if_true]
        exact lookupEntry_insert_self _ s.index
      · have hmod2 : ((s.newArticles + 1) % 10 == 0) = false := by simpa using hmod
        simp only [processArticle, hl2, Bool.false_eq_true, if_false, hweb2, hmod2]
        exact lookupEntry_insert_self _ s.index

theorem processArticle_index_mono (web : Web) (catPre : String) (s : CrawlState)
    (aurl x : String) (h : (lookupEntry s.index x).isSome = true) :
    (lookupEntry (processArticle web catPre s aurl).1.index x).isSome = true := by
  by_cases hl : (lookupEntry s.index aurl).isSome = true
  · simp only [processArticle, hl, if_true]
    exact h
  · have hl2 : (lookupEntry s.index aurl).isSome = false := by simpa using hl
    cases hweb : lookupDoc web aurl with
    | none =>
      simp only [processArticle, hl2, Bool.false_eq_true, if_false, hweb]
      exact h
    | some d =>
      by_cases hmod : ((s.newArticles + 1) % 10 == 0) = true
      · simp only [processArticle, hl2, Bool.false_eq_true, if_false, hweb, hmod, if_true]
        exact lookupEntry_insert_mono _ s.index x h
      · have hmod2 : ((s.newArticles + 1) % 10 == 0) = false := by simpa using hmod
        simp only [processArticle, hl2, Bool.false_eq_true, if_false, hweb, hmod2]
        exact lookupEntry_insert_mono _ s.index x h

theorem processArticles_index_mono (web : Web) (catPre : String) :
    ∀ (links : List String) (s : CrawlState) (x : String),
      (lookupEntry s.index x).isSome = true →
      (lookupEntry (processArticles web catPre s links).1.index x).isSome = true := by
  intro links
  induction links with
  | nil => intro s x h; rw [processArticles]; exact h
  | cons a rest ih =>
    intro s x h
    rw [processArticles]
    exact ih _ x (processArticle_index_mono web catPre s a x h)

theorem processArticles_covers (web : Web) (catPre : String) :
    ∀ (links : List String) (s : CrawlState) (a : String), a ∈ links →
      (lookupDoc web a).isSome = true →
      (lookupEntry (processArticles web catPre s links).1.index a).isSome = true := by
  intro links
  induction links with
  | nil => intro s a ha; simp at ha
  | cons b rest ih =>
    intro s a ha hweb
    rw [processArticles]
    rcases List.mem_cons.mp ha with rfl | har
    · exact processArticles_index_mono web catPre rest _ a
        (processArticle_indexes web catPre s a hweb)
    · exact ih _ a har hweb

theorem stepPage_indexedAll (web : Web) (catPre : String) (s : CrawlState)
    (h : IndexedAll web s) : IndexedAll web (stepPage web catPre s).1 := by
  cases hq : s.pagesToVisit with
  | nil => simp only [stepPage, hq]; exact h
  | cons u rest =>
    by_cases hvc : ({ s with pagesToVisit := rest } : CrawlState).visitedPages.contains u = true
    · simp only [stepPage, hq, hvc, if_true]
      exact h
    · have hvcf : ({ s with pagesToVisit := rest } : CrawlState).visitedPages.contains u
          = false := by simpa using hvc
      cases hweb : lookupDoc web u with
      | none =>
        simp only [stepPage, hq, hvcf, Bool.false_eq_true, if_false, hweb]
        exact h
      | some d =>
        simp only [stepPage, hq, hvcf, Bool.false_eq_true, if_false, hweb]
        intro a ha hwebA
        obtain ⟨_, _, ha3⟩ := processArticles_keeps web catPre d.articleLinks
          { s with
            pagesToVisit := rest, visitedPages := u :: s.visitedPages,
            encountered := s.encountered ++ d.articleLinks }
        have ha4 : a ∈ s.encountered ++ d.articleLinks := by
          have ha5 : a ∈ (processArticles web catPre
              { s with
                pagesToVisit := rest, visitedPages := u :: s.visitedPages,
                encountered := s.encountered ++ d.articleLinks }
              d.articleLinks).1.encountered := ha
          rw [ha3] at ha5
          exact ha5
        rcases List.mem_append.mp ha4 with h6 | h7
        · exact processArticles_index_mono web catPre d.articleLinks _ a (h a h6 hwebA)
        · exact processArticles_covers web catPre d.articleLinks _ a h7 hwebA

theorem crawlLoop_indexedAll (web : Web) (catPre : String) (maxPages : Nat) :
    ∀ (fuel : Nat) (s : CrawlState) (r : CrawlState × List CrawlState),
      crawlLoop web catPre maxPages fuel s = some r → IndexedAll web s →
      IndexedAll web r.1 := by
  intro fuel
  induction fuel with
  | zero =>
    intro s r hr h
    rw [crawlLoop] at hr
    by_cases hg : crawlGuard maxPages s
    · rw [if_pos hg] at hr; exact absurd hr (by simp)
    · rw [if_neg hg] at hr
      simp only [Option.some.injEq] at hr
      subst hr
      exact h
  | succ fuel ih =>
    intro s r hr h
    rw [crawlLoop] at hr
    by_cases hg : crawlGuard maxPages s
    · rw [if_pos hg] at hr
      cases hrec : crawlLoop web catPre maxPages fuel (stepPage web catPre s).1 with
      | none => rw [hrec] at hr; exact absurd hr (by simp)
      | some r2 =>
        rw [hrec] at hr
        simp only [Option.some.injEq] at hr
        subst hr
        exact ih _ r2 hrec (stepPage_indexedAll web catPre s h)
    · rw [if_neg hg] at hr
      simp only [Option.some.injEq] at hr
      subst hr
      exact h

theorem processArticle_frozen (web : Web) (catPre : String) (s : CrawlState) (aurl : String)
    (h : (lookupDoc web aurl).isSome = true → (lookupEntry s.index aurl).isSome = true) :
    (processArticle web catPre s aurl).1.index = s.index ∧
    (processArticle web catPre s aurl).1.artSuccesses = s.artSuccesses ∧
    (processArticle web catPre s aurl).1.newArticles = s.newArticles := by
  by_cases hl : (lookupEntry s.index aurl).isSome = true
  · simp only [processArticle, hl, if_true]
    exact ⟨by simp, by simp, by simp⟩
  · have hl2 : (lookupEntry s.index aurl).isSome = false := by simpa using hl
    cases hweb : lookupDoc web aurl with
    | none =>
      simp only [processArticle, hl2, Bool.false_eq_true, if_false, hweb]
      exact ⟨by simp, by simp, by simp⟩
    | some d =>
      exact absurd (h (by simp [hweb])) hl

theorem processArticles_frozen (web : Web) (catPre : String) :
    ∀ (links : List String) (s : CrawlState),
      (∀ a ∈ links, (lookupDoc web a).isSome = true →
        (lookupEntry s.index a).isSome = true) →
      (processArticles web catPre s links).1.index = s.index ∧
      (processArticles web catPre s links).1.artSuccesses = s.artSuccesses ∧
      (processArticles web catPre s links).1.newArticles = s.newArticles := by
  intro links
  induction links with
  | nil => intro s _; rw [processArticles]; exact ⟨rfl, rfl, rfl⟩
  | cons a rest ih =>
    intro s h
    rw [processArticles]
    obtain ⟨h1, h2, h3⟩ := processArticle_frozen web catPre s a (h a (by simp))
    have h4 : ∀ b ∈ rest, (lookupDoc web b).isSome = true →
        (lookupEntry (processArticle web catPre s a).1.index b).isSome = true := by
      intro b hb hwb
      rw [h1]
      exact h b (by simp [hb]) hwb
    obtain ⟨h5, h6, h7⟩ := ih (processArticle web catPre s a).1 h4
    exact ⟨h5.trans h1, h6.trans h2, h7.trans h3⟩

theorem stepPage_frozen (web : Web) (catPre : String) (s : CrawlState)
    (h : ∀ a ∈ (stepPage web catPre s).1.encountered,
      (lookupDoc web a).isSome = true → (lookupEntry s.index a).isSome = true) :
    (stepPage web catPre s).1.index = s.index ∧
    (stepPage web catPre s).1.artSuccesses = s.artSuccesses ∧
    (stepPage web catPre s).1.newArticles = s.newArticles := by
  cases hq : s.pagesToVisit with
  | nil => simp only [stepPage, hq]; exact ⟨by simp, by simp, by simp⟩
  | cons u rest =>
    by_cases hvc : ({ s with pagesToVisit := rest } : CrawlState).visitedPages.contains u = true
    · simp only [stepPage, hq, hvc, if_true]
      exact ⟨by simp, by simp, by simp⟩
    · have hvcf : ({ s with pagesToVisit := rest } : CrawlState).visitedPages.contains u
          = false := by simpa using hvc
      cases hweb : lookupDoc web u with
      | none =>
        simp only [stepPage, hq, hvcf, Bool.false_eq_true, if_false, hweb]
        exact ⟨by simp, by simp, by simp⟩
      | some d =>
        obtain ⟨_, _, ha3⟩ := processArticles_keeps web catPre d.articleLinks
          { s with
            pagesToVisit := rest, visitedPages := u :: s.visitedPages,
            encountered := s.encountered ++ d.articleLinks }
        have h2 : ∀ a ∈ d.articleLinks, (lookupDoc web a).isSome = true →
            (lookupEntry s.index a).isSome = true := by
          intro a ha hwa
          apply h a ?_ hwa
          simp only [stepPage, hq, hvcf, Bool.false_eq_true, if_false, hweb]
          show a ∈ (processArticles web catPre _ d.articleLinks).1.encountered
          rw [ha3]
          exact List.mem_append.mpr (Or.inr ha)
        obtain ⟨h5, h6, h7⟩ := processArticles_frozen web catPre d.articleLinks
          { s with
            pagesToVisit := rest, visitedPages := u :: s.visitedPages,
            encountered := s.encountered ++ d.articleLinks } h2
        simp only [stepPage, hq, hvcf, Bool.false_eq_true, if_false, hweb]
        exact ⟨h5, h6, h7⟩

theorem crawlLoop_frozen (web : Web) (catPre : String) (maxPages : Nat) :
    ∀ (fuel : Nat) (s : CrawlState) (r : CrawlState × List CrawlState),
      crawlLoop web catPre maxPages fuel s = some r →
      (∀ a ∈ r.1.encountered, (lookupDoc web a).isSome = true →
        (lookupEntry s.index a).isSome = true) →
      r.1.index = s.index ∧ r.1.artSuccesses = s.artSuccesses ∧
        r.1.newArticles = s.newArticles := by
  intro fuel
  induction fuel with
  | zero =>
    intro s r hr h
    rw [crawlLoop] at hr
    by_cases hg : crawlGuard maxPages s
    · rw [if_pos hg] at hr; exact absurd hr (by simp)
    · rw [if_neg hg] at hr
      simp only [Option.some.injEq] at hr
      subst hr
      exact ⟨rfl, rfl, rfl⟩
  | succ fuel ih =>
    intro s r hr h
    rw [crawlLoop] at hr
    by_cases hg : crawlGuard maxPages s
    · rw [if_pos hg] at hr
      cases hrec : crawlLoop web catPre maxPages fuel (stepPage web catPre s).1 with
      | none => rw [hrec] at hr; exact absurd hr (by simp)
      | some r2 =>
        rw [hrec] at hr
        simp only [Option.some.injEq] at hr
        subst hr
        have hstep := stepPage_frozen web catPre s (fun a ha hwa =>
          h a (crawlLoop_enc_mono web catPre maxPages fuel _ r2 hrec a ha) hwa)
        have hih := ih _ r2 hrec (fun a ha hwa => by
          rw [hstep.1]
          exact h a ha hwa)
        exact ⟨hih.1.trans hstep.1, hih.2.1.trans hstep.2.1, hih.2.2.trans hstep.2.2⟩
    · rw [if_neg hg] at hr
      simp only [Option.some.injEq] at hr
      subst hr
      exact ⟨rfl, rfl, rfl⟩

/-- C4 counterexample: with a category page linking one dead article URL,
the second run — with the first run's persisted state carried over — still
issues an article fetch attempt for the dead URL, refuting "fetches zero
articles" in the strict (no fetch issued) reading. -/
theorem claim_C4_counterexample :
    runC4b.artAttempts = 1 ∧ ¬ (runC4b.artAttempts = 0) := by
  constructor
  · decide
  · decide

/-- C4 (amended): a discovered article link already in the Index is
skipped without any fetch, persist, or re-index (the state is returned
unchanged and no intermediate state is emitted); and a second
`crawl_category` run over an unchanged web, starting from the state
persisted by the first run (category-end flush included), adds no
IndexEntry, indexes no new article, and succeeds in fetching no article —
fetch attempts can recur only for URLs whose fetch failed in the first
run, and they fail again. -/
theorem claim_C4_theorem :
    (∀ (web : Web) (catPre : String) (s : CrawlState) (aurl : String),
      (lookupEntry s.index aurl).isSome = true →
      processArticle web catPre s aurl = (s, [])) ∧
    (∀ (web : Web) (catPre : String) (maxPages : Nat) (categoryUrl : String)
      (prev : CrawlState) (r1 r2 : CrawlState × List CrawlState),
      crawlCategory web catPre maxPages categoryUrl prev = some r1 →
      crawlCategory web catPre maxPages categoryUrl (flushState r1.1) = some r2 →
      r2.1.index = r1.1.index ∧ r2.1.newArticles = 0 ∧ r2.1.artSuccesses = 0) := by
  constructor
  · intro web catPre s aurl h
    simp only [processArticle, h, if_true]
  · intro web catPre maxPages categoryUrl prev r1 r2 h1 h2
    rw [crawlCategory] at h1 h2
    have hfuel : fuelFor web (initState (flushState r1.1) categoryUrl)
        = fuelFor web (initState prev categoryUrl) := rfl
    rw [hfuel] at h2
    have hJ0 : IndexedAll web (initState prev categoryUrl) := by
      intro a ha
      simp [initState] at ha
    have hJ : IndexedAll web r1.1 :=
      crawlLoop_indexedAll web catPre maxPages _ _ r1 h1 hJ0
    have henc : r1.1.encountered = r2.1.encountered :=
      crawlLoop_proj web catPre maxPages _ (initState prev categoryUrl)
        (initState (flushState r1.1) categoryUrl) r1 r2 rfl rfl rfl h1 h2
    have hfr := crawlLoop_frozen web catPre maxPages _ _ r2 h2 (fun a ha hwa => by
      have ha1 : a ∈ r1.1.encountered := by rw [henc]; exact ha
      exact hJ a ha1 hwa)
    exact ⟨hfr.1, hfr.2.2, hfr.2.1⟩

/-- Witness for C4: the indexed link of the collision fixture is skipped
outright, and the second run over the dead-link fixture adds nothing. -/
theorem claim_C4_witness :
    processArticle webC9 "/ro_ar/" runC9 urlC9a = (runC9, []) ∧
    runC4b.index = runC4a.index ∧ runC4b.newArticles = 0 ∧
      runC4b.artSuccesses = 0 := by
  refine ⟨claim_C4_theorem.1 webC9 "/ro_ar/" runC9 urlC9a (by decide), ?_⟩
  have h1 : crawlCategory webC4 "/x/" 5 "/x/c" emptyState
      = some ((crawlCategory webC4 "/x/" 5 "/x/c" emptyState).getD (emptyState, [])) := by
    decide
  have h2 : crawlCategory webC4 "/x/" 5 "/x/c" (flushState runC4a)
      = some ((crawlCategory webC4 "/x/" 5 "/x/c"
          (flushState runC4a)).getD (emptyState, [])) := by
    decide
  exact claim_C4_theorem.2 webC4 "/x/" 5 "/x/c" emptyState _ _ h1 h2

end RRI
